import Mathlib

/-!
# aisdi linear containers: `Vector` and `LinkedList`

A shallow embedding of `src/Vector.h` and `src/LinkedList.h`.

* Every member function is a state transformer `Op σ β` on the object it is
  called on.  A run ends in one of three ways (`Res`): it returns a value and
  the new object state, it throws a C++ exception (the state at the moment of
  the `throw` is kept, so that "a failing call changes nothing" can be stated),
  or it runs into undefined behaviour (`Fault`): a null dereference, an access
  to freed memory, an access outside an allocated block, or a loop that never
  leaves.
* `Type` is treated as a trivially destructible value type (such as `int`):
  explicit destructor calls `x.~Type()` do nothing, and a slot created by
  `new value_type[n]` or by `Node()` holds `default`.
* `size_type` is modelled by `Nat`.  A decrement wraps at zero as a 64 bit
  counter does (`decr`); increments and the doubling of the capacity are not
  reduced modulo `2^64`, since `2^64` slots or nodes cannot be allocated.
-/

namespace aisdi

/-! ## Outcomes of a call -/

/-- The two exception classes thrown by the containers. -/
inductive Exn where
  | logic_error
  | out_of_range
  deriving DecidableEq

/-- Undefined behaviour a call can run into. -/
inductive Fault where
  | null_deref
  | use_after_free
  | out_of_bounds
  | diverges
  deriving DecidableEq

/-- Result of running a member function on an object of state type `σ`. -/
inductive Res (σ β : Type) where
  | ok (v : β) (s : σ)
  | thrown (e : Exn) (s : σ)
  | undefined (f : Fault)
  deriving DecidableEq

/-- A member function: a state transformer with exceptions and faults. -/
def Op (σ β : Type) : Type := σ → Res σ β

/-- Return a value, state unchanged. -/
def Op.pure {σ β : Type} (v : β) : Op σ β := fun s => .ok v s

/-- Sequencing: an exception or a fault of the first part ends the call. -/
def Op.bind {σ β γ : Type} (m : Op σ β) (f : β → Op σ γ) : Op σ γ := fun s =>
  match m s with
  | .ok v s1 => f v s1
  | .thrown e s1 => .thrown e s1
  | .undefined u => .undefined u

instance {σ : Type} : Monad (Op σ) where
  pure := Op.pure
  bind := Op.bind

/-- Read the object state. -/
def Op.get {σ : Type} : Op σ σ := fun s => .ok s s

/-- Update the object state. -/
def Op.modify {σ : Type} (f : σ → σ) : Op σ Unit := fun s => .ok () (f s)

/-- The statement `throw e`. -/
def Op.throw {σ β : Type} (e : Exn) : Op σ β := fun s => .thrown e s

/-- Undefined behaviour. -/
def Op.fault {σ β : Type} (f : Fault) : Op σ β := fun _ => .undefined f

/-- The loop `for (i = lo; i < lo + n; i++) body(i)`. -/
def forUp {σ : Type} (body : Nat → Op σ Unit) (lo : Nat) : Nat → Op σ Unit
  | 0 => Op.pure ()
  | n + 1 => Op.bind (forUp body lo n) (fun _ => body (lo + n))

/-- The loop `for (i = n; i > 0; i--) body(i)`. -/
def forDown {σ : Type} (body : Nat → Op σ Unit) : Nat → Op σ Unit
  | 0 => Op.pure ()
  | n + 1 => Op.bind (body (n + 1)) (fun _ => forDown body n)

/-- The exception a run threw together with the state it left, if it threw. -/
def Res.thrownState {σ β : Type} : Res σ β → Option (Exn × σ)
  | .thrown e s => some (e, s)
  | _ => none

/-- The decrement `n--` of a `size_type` counter (64 bit, wrapping at zero). -/
def decr (n : Nat) : Nat := (n + (2 ^ 64 - 1)) % 2 ^ 64

/-! ## Vector -/

/-- The macro `VECTOR_STARTINGvector_size`. -/
def VECTOR_STARTINGvector_size : Nat := 4

/-- The macro `VECTOR_SCALE`. -/
def VECTOR_SCALE : Nat := 2

/-- The data members of `Vector<Type>`.  `buffer = none` is `nullptr`,
`buffer = some cells` a block allocated by `new value_type[cells.length]`.
`stamp` is a ghost field naming the block `buffer` points to (it changes with
every `new[]`), so that iterators into a released block can be told apart. -/
structure Vector (α : Type) where
  vector_size : Nat
  buffer_size : Nat
  buffer : Option (List α)
  stamp : Nat
  deriving DecidableEq

namespace Vector

variable {α : Type}

/-- A `Vector` iterator: the raw pointer `buffer + position` into the block
named `block`. -/
structure ConstIterator where
  block : Nat
  position : Nat
  deriving DecidableEq

/-- The read `buf[i]` of a raw block. -/
def readCells (buf : Option (List α)) (i : Nat) : Except Fault α :=
  match buf with
  | none => .error .null_deref
  | some cells =>
    match cells[i]? with
    | some x => .ok x
    | none => .error .out_of_bounds

/-- The write `buf[i] = x` into a raw block. -/
def writeCells (cells : List α) (i : Nat) (x : α) : Except Fault (List α) :=
  if i < cells.length then .ok (cells.set i x) else .error .out_of_bounds

/-- The read `buffer[i]`. -/
def read (i : Nat) : Op (Vector α) α := fun v =>
  match readCells v.buffer i with
  | .ok x => .ok x v
  | .error f => .undefined f

/-- The write `buffer[i] = x`. -/
def write (i : Nat) (x : α) : Op (Vector α) Unit := fun v =>
  match v.buffer with
  | none => .undefined .null_deref
  | some cells =>
    match writeCells cells i x with
    | .ok cells1 => .ok () { v with buffer := some cells1 }
    | .error f => .undefined f

/-- The loop `for (i = 0; i < n; i++) dst[i] = src[i];` used by `reserve` and by
the constructors. -/
def copyElems (src : Option (List α)) : Nat → List α → Except Fault (List α)
  | 0, dst => .ok dst
  | n + 1, dst =>
    match copyElems src n dst with
    | .error f => .error f
    | .ok dst1 =>
      match readCells src n with
      | .error f => .error f
      | .ok x => writeCells dst1 n x

/-- `Vector::reserve(multipler)` (Vector.h 37-46). -/
def reserve [Inhabited α] (multipler : Nat) : Op (Vector α) Unit := fun v =>
  let buffer_size := v.buffer_size * multipler
  let new_buffer : List α := List.replicate buffer_size default
  match copyElems v.buffer v.vector_size new_buffer with
  | .error f => .undefined f
  | .ok new_buffer1 =>
    .ok () { vector_size := v.vector_size, buffer_size := buffer_size,
             buffer := some new_buffer1, stamp := v.stamp + 1 }

/-- `Vector::Vector()` (Vector.h 49-53). -/
def new [Inhabited α] : Vector α :=
  { vector_size := 0, buffer_size := VECTOR_STARTINGvector_size,
    buffer := some (List.replicate VECTOR_STARTINGvector_size default), stamp := 0 }

/-- `Vector::Vector(std::initializer_list<Type> l)` (Vector.h 55-63). -/
def ofInitList [Inhabited α] (l : List α) : Res (Vector α) Unit :=
  let vector_size := l.length
  let buffer_size := vector_size
  match copyElems (some l) vector_size (List.replicate buffer_size default) with
  | .error f => .undefined f
  | .ok buffer =>
    .ok () { vector_size := vector_size, buffer_size := buffer_size,
             buffer := some buffer, stamp := 0 }

/-- `Vector::Vector(const Vector& other)` (Vector.h 65-72). -/
def copyCtor [Inhabited α] (other : Vector α) : Res (Vector α) Unit :=
  match copyElems other.buffer other.vector_size
      (List.replicate other.buffer_size default) with
  | .error f => .undefined f
  | .ok buffer =>
    .ok () { vector_size := other.vector_size, buffer_size := other.buffer_size,
             buffer := some buffer, stamp := 0 }

/-- `Vector::Vector(Vector&& other)` (Vector.h 74-82): the new object and the
moved-from `other`. -/
def moveCtor (other : Vector α) : Vector α × Vector α :=
  ({ vector_size := other.vector_size, buffer_size := other.buffer_size,
     buffer := other.buffer, stamp := other.stamp },
   { vector_size := 0, buffer_size := 0, buffer := none, stamp := other.stamp })

/-- `Vector::isEmpty` (Vector.h 116-119). -/
def isEmpty (v : Vector α) : Bool := v.vector_size == 0

/-- `Vector::getSize` (Vector.h 121-124). -/
def getSize (v : Vector α) : Nat := v.vector_size

/-- Number of slots of the block `buffer` points to (`0` for `nullptr`). -/
def blockSize (v : Vector α) : Nat :=
  match v.buffer with
  | none => 0
  | some cells => cells.length

/-- `Vector::begin` (Vector.h 207-210). -/
def begin (v : Vector α) : ConstIterator := ⟨v.stamp, 0⟩

/-- `Vector::end` (Vector.h 212-215). -/
def «end» (v : Vector α) : ConstIterator := ⟨v.stamp, v.vector_size⟩

/-- `ConstIterator::operator+` (Vector.h 288-291), for `d ≥ 0`. -/
def ConstIterator.add (it : ConstIterator) (d : Nat) : ConstIterator :=
  ⟨it.block, it.position + d⟩

/-- The read `*it` through an iterator (Vector.h 257-260). -/
def derefRead (it : ConstIterator) : Op (Vector α) α := fun v =>
  if it.block = v.stamp then read it.position v else .undefined .use_after_free

/-- The write `*it = x` through an iterator (Vector.h 360-364). -/
def derefWrite (it : ConstIterator) (x : α) : Op (Vector α) Unit := fun v =>
  if it.block = v.stamp then write it.position x v else .undefined .use_after_free

/-- `Vector::append` (Vector.h 126-131). -/
def append [Inhabited α] (item : α) : Op (Vector α) Unit := do
  let v ← Op.get
  if v.buffer_size = v.vector_size then reserve VECTOR_SCALE
  let v ← Op.get
  write v.vector_size item
  Op.modify fun v => { v with vector_size := v.vector_size + 1 }

/-- `Vector::prepend` (Vector.h 133-143). -/
def prepend [Inhabited α] (item : α) : Op (Vector α) Unit := do
  let v ← Op.get
  if v.buffer_size = v.vector_size then reserve VECTOR_SCALE
  let v ← Op.get
  forDown (fun i => do let x ← read (i - 1); write i x) v.vector_size
  write 0 item
  Op.modify fun v => { v with vector_size := v.vector_size + 1 }

/-- The loop of `Vector::insert` (Vector.h 150-154),
`while (position != end()) { *(position+1) = *position; position++; }`.
Every round reads and writes one slot further right, so with `fuel` above the
number of slots of the block the loop stops or leaves the block before the
fuel is used up. -/
def insertLoop : Nat → ConstIterator → Op (Vector α) Unit
  | 0, position => fun v =>
    if position = v.end then .ok () v else .undefined .diverges
  | fuel + 1, position => fun v =>
    if position = v.end then .ok () v
    else
      (do let x ← derefRead position
          derefWrite (position.add 1) x
          insertLoop fuel (position.add 1)) v

/-- `Vector::insert` (Vector.h 145-156). -/
def insert [Inhabited α] (insertPosition : ConstIterator) (item : α) :
    Op (Vector α) Unit := do
  let v ← Op.get
  if v.buffer_size = v.vector_size then reserve VECTOR_SCALE
  derefWrite insertPosition item
  let v ← Op.get
  insertLoop (v.blockSize + 1) (insertPosition.add 1)
  Op.modify fun v => { v with vector_size := v.vector_size + 1 }

/-- `Vector::popFirst` (Vector.h 158-166). -/
def popFirst : Op (Vector α) α := do
  let v ← Op.get
  if v.isEmpty then Op.throw .logic_error
  else
    let temp ← read 0
    forUp (fun i => do let x ← read i; write (i - 1) x) 1 (v.vector_size - 1)
    Op.modify fun v => { v with vector_size := decr v.vector_size }
    return temp

/-- `Vector::popLast` (Vector.h 168-174). -/
def popLast : Op (Vector α) α := do
  let v ← Op.get
  if v.isEmpty then Op.throw .logic_error
  else
    Op.modify fun v => { v with vector_size := decr v.vector_size }
    let v ← Op.get
    let temp ← read v.vector_size
    return temp

/-- The loop of `Vector::erase(position)` (Vector.h 179-183),
`while (position != end()-1) { *position = *(position+1); position++; }`; the
test `position != end() - 1` is taken as `position + 1 != end()`.  As in
`insertLoop` the fuel is never used up. -/
def eraseLoop1 : Nat → ConstIterator → Op (Vector α) ConstIterator
  | 0, position => fun v =>
    if position.add 1 = v.end then .ok position v else .undefined .diverges
  | fuel + 1, position => fun v =>
    if position.add 1 = v.end then .ok position v
    else
      (do let x ← derefRead (position.add 1)
          derefWrite position x
          eraseLoop1 fuel (position.add 1)) v

/-- `Vector::erase(position)` (Vector.h 176-187). -/
def erase (possition : ConstIterator) : Op (Vector α) Unit := do
  let v ← Op.get
  let _ ← eraseLoop1 (v.blockSize + 1) possition
  Op.modify fun v => { v with vector_size := decr v.vector_size }

/-- The loop of `Vector::erase(first, last)` (Vector.h 194-204); `fuel` counts
the rounds, `ending_element` is the `end()` taken before the loop. -/
def eraseLoop2 (lastExcluded ending_element : ConstIterator) :
    Nat → ConstIterator → ConstIterator → Op (Vector α) Unit
  | 0, position, _ => fun v =>
    if position = lastExcluded then .ok () v else .undefined .diverges
  | fuel + 1, position, to_erase => fun v =>
    if position = lastExcluded then .ok () v
    else
      (do let to_erase1 ←
            if to_erase ≠ ending_element then
              (do let x ← derefRead to_erase
                  derefWrite position x
                  pure (to_erase.add 1))
            else pure to_erase
          Op.modify fun v => { v with vector_size := decr v.vector_size }
          eraseLoop2 lastExcluded ending_element fuel (position.add 1) to_erase1) v

/-- `Vector::erase(firstIncluded, lastExcluded)` (Vector.h 189-205).  For
`firstIncluded ≤ lastExcluded` the loop makes exactly
`lastExcluded - firstIncluded` rounds; for `firstIncluded` behind
`lastExcluded` (not a range) `position` never meets `lastExcluded` and the
call is reported as `diverges`. -/
def eraseRange (firstIncluded lastExcluded : ConstIterator) : Op (Vector α) Unit := do
  let v ← Op.get
  eraseLoop2 lastExcluded v.end (lastExcluded.position - firstIncluded.position)
    firstIncluded lastExcluded

/-- The client loop `for (it = begin(); it != end(); ++it) out.push_back(*it)`,
with `it` at slot `pos` of the live block and `n` slots to go before `end()`. -/
def iterate (v : Vector α) : Nat → Nat → Except Fault (List α)
  | _, 0 => .ok []
  | pos, n + 1 =>
    match readCells v.buffer pos with
    | .error f => .error f
    | .ok x =>
      match iterate v (pos + 1) n with
      | .error f => .error f
      | .ok rest => .ok (x :: rest)

/-- The elements visited by iterating from `begin()` to `end()`. -/
def toList (v : Vector α) : Except Fault (List α) := iterate v 0 v.vector_size

/-- The client loop `for (x : xs) v.append(x);`. -/
def appendAll [Inhabited α] : List α → Op (Vector α) Unit
  | [] => Op.pure ()
  | x :: xs => Op.bind (append x) (fun _ => appendAll xs)

/-- The vector owns a block of `buffer_size` slots and its `vector_size` live
slots hold the elements `l`, in order. -/
def Holds (v : Vector α) (l : List α) : Prop :=
  v.vector_size = l.length ∧
    ∃ cells, v.buffer = some cells ∧ cells.length = v.buffer_size ∧
      l.length ≤ cells.length ∧ cells.take l.length = l

end Vector

/-! ## LinkedList -/

/-- A `Node*`: `none` is `nullptr`, `some a` the node allocated as number `a`. -/
abbrev Ptr : Type := Option Nat

/-- The class `LinkedList<Type>::Node` (LinkedList.h 271-290). -/
structure Node (α : Type) where
  item : α
  previous : Ptr
  next : Ptr
  deriving DecidableEq

/-- The data members of `LinkedList<Type>` together with the nodes it has
allocated: `heap[a]` is `some n` for a live node and `none` once it has been
deleted. -/
structure LinkedList (α : Type) where
  heap : List (Option (Node α))
  first : Ptr
  last : Ptr
  list_size : Nat
  deriving DecidableEq

namespace LinkedList

variable {α : Type}

/-- A `LinkedList` iterator (LinkedList.h 292-379): the pointer `pointed`. -/
structure ConstIterator where
  pointed : Ptr
  deriving DecidableEq

/-- The node a pointer refers to. -/
def nodeAt (heap : List (Option (Node α))) (p : Ptr) : Except Fault (Node α) :=
  match p with
  | none => .error .null_deref
  | some a =>
    match heap[a]? with
    | some (some n) => .ok n
    | _ => .error .use_after_free

/-- Read access `*p`. -/
def load (p : Ptr) : Op (LinkedList α) (Node α) := fun s =>
  match nodeAt s.heap p with
  | .ok n => .ok n s
  | .error f => .undefined f

/-- Write access: replace the node `*p` by `f (*p)`. -/
def store (p : Ptr) (f : Node α → Node α) : Op (LinkedList α) Unit := fun s =>
  match p with
  | none => .undefined .null_deref
  | some a =>
    match s.heap[a]? with
    | some (some n) => .ok () { s with heap := s.heap.set a (some (f n)) }
    | _ => .undefined .use_after_free

/-- The statement `new Node(...)`. -/
def alloc (n : Node α) : Op (LinkedList α) Ptr := fun s =>
  .ok (some s.heap.length) { s with heap := s.heap ++ [some n] }

/-- The statement `delete p` (`~Node` does nothing). -/
def delete (p : Ptr) : Op (LinkedList α) Unit := fun s =>
  match p with
  | none => .ok () s
  | some a =>
    match s.heap[a]? with
    | some (some _) => .ok () { s with heap := s.heap.set a none }
    | _ => .undefined .use_after_free

/-- The read `p->previous`. -/
def prevOf (p : Ptr) : Op (LinkedList α) Ptr := do
  let n ← load p
  return n.previous

/-- The read `p->next`. -/
def nextOf (p : Ptr) : Op (LinkedList α) Ptr := do
  let n ← load p
  return n.next

/-- The read `p->item`. -/
def itemOf (p : Ptr) : Op (LinkedList α) α := do
  let n ← load p
  return n.item

/-- The write `p->previous = q`. -/
def setPrev (p q : Ptr) : Op (LinkedList α) Unit :=
  store p fun n => { n with previous := q }

/-- The write `p->next = q`. -/
def setNext (p q : Ptr) : Op (LinkedList α) Unit :=
  store p fun n => { n with next := q }

/-- `LinkedList::init` followed by nothing else: `LinkedList::LinkedList()`
(LinkedList.h 34-44). -/
def new [Inhabited α] : LinkedList α :=
  { heap := [some { item := default, previous := none, next := none }],
    first := some 0, last := some 0, list_size := 0 }

/-- `LinkedList::isEmpty` (LinkedList.h 115-118). -/
def isEmpty (s : LinkedList α) : Bool := s.list_size == 0

/-- `LinkedList::getSize` (LinkedList.h 120-123). -/
def getSize (s : LinkedList α) : Nat := s.list_size

/-- `LinkedList::begin` (LinkedList.h 240-243). -/
def begin (s : LinkedList α) : ConstIterator := ⟨s.first⟩

/-- `LinkedList::end` (LinkedList.h 245-248). -/
def «end» (s : LinkedList α) : ConstIterator := ⟨s.last⟩

/-- `LinkedList::append` (LinkedList.h 125-140). -/
def append (item : α) : Op (LinkedList α) Unit := do
  let new_node ← alloc { item := item, previous := none, next := none }
  let s ← Op.get
  if s.list_size = 0 then
    Op.modify fun s => { s with first := new_node }
  else do
    let lp ← prevOf s.last
    setNext lp new_node
    let lp ← prevOf s.last
    setPrev new_node lp
  setPrev s.last new_node
  setNext new_node s.last
  Op.modify fun s => { s with list_size := s.list_size + 1 }

/-- `LinkedList::prepend` (LinkedList.h 142-153). -/
def prepend (item : α) : Op (LinkedList α) Unit := do
  let s ← Op.get
  let new_node ← alloc { item := item, previous := none, next := s.first }
  if s.list_size = 0 then
    setPrev s.last new_node
  else do
    let fn ← nextOf s.first
    setPrev fn new_node
  Op.modify fun s => { s with first := new_node }
  Op.modify fun s => { s with list_size := s.list_size + 1 }

/-- `LinkedList::insert` (LinkedList.h 155-164). -/
def insert (insertPosition : ConstIterator) (item : α) : Op (LinkedList α) Unit := do
  let pp ← prevOf insertPosition.pointed
  let new_node ← alloc { item := item, previous := pp, next := insertPosition.pointed }
  let pp ← prevOf insertPosition.pointed
  if pp = none then
    Op.modify fun s => { s with first := new_node }
  else
    setNext pp new_node
  setPrev insertPosition.pointed new_node
  Op.modify fun s => { s with list_size := s.list_size + 1 }

/-- `LinkedList::popFirst` (LinkedList.h 166-181). -/
def popFirst : Op (LinkedList α) α := do
  let s ← Op.get
  if s.list_size = 0 then Op.throw .logic_error
  else
    let value ← itemOf s.first
    let node_to_delete := s.first
    if s.list_size = 1 then
      Op.modify fun s => { s with first := s.last }
    else do
      let fn ← nextOf s.first
      Op.modify fun s => { s with first := fn }
    let s ← Op.get
    setPrev s.first none
    delete node_to_delete
    Op.modify fun s => { s with list_size := decr s.list_size }
    return value

/-- `LinkedList::popLast` (LinkedList.h 183-203). -/
def popLast : Op (LinkedList α) α := do
  let s ← Op.get
  if s.list_size = 0 then Op.throw .logic_error
  else
    let lp ← prevOf s.last
    let value ← itemOf lp
    let node_to_delete ← prevOf s.last
    if s.list_size = 1 then do
      Op.modify fun s => { s with first := s.last }
      setPrev s.last none
    else do
      let lp ← prevOf s.last
      let lpp ← prevOf lp
      setPrev s.last lpp
      let lp ← prevOf s.last
      let lpp ← prevOf lp
      setNext lpp s.last
    delete node_to_delete
    Op.modify fun s => { s with list_size := decr s.list_size }
    return value

/-- `LinkedList::erase(position)` (LinkedList.h 205-217). -/
def erase (possition : ConstIterator) : Op (LinkedList α) Unit := do
  let node_to_delete := possition.pointed
  let s ← Op.get
  if possition.pointed = s.first then do
    let fn ← nextOf s.first
    Op.modify fun s => { s with first := fn }
  else do
    let pn ← nextOf possition.pointed
    let pp ← prevOf possition.pointed
    setNext pp pn
  let pp ← prevOf possition.pointed
  let pn ← nextOf possition.pointed
  setPrev pn pp
  delete node_to_delete
  Op.modify fun s => { s with list_size := decr s.list_size }

/-- The loop of `LinkedList::erase(first, last)` (LinkedList.h 228-233); it
returns the final `node_to_delete`.  Each round deletes a live node, so with
`fuel` above the number of allocated nodes the loop stops or faults before
the fuel is used up. -/
def eraseLoop (lastExcluded : ConstIterator) : Nat → Ptr → Op (LinkedList α) Ptr
  | 0, node_to_delete =>
    if node_to_delete = lastExcluded.pointed then Op.pure node_to_delete
    else Op.fault .diverges
  | fuel + 1, node_to_delete =>
    if node_to_delete = lastExcluded.pointed then Op.pure node_to_delete
    else do
      let temp := node_to_delete
      let node_to_delete ← nextOf node_to_delete
      delete temp
      eraseLoop lastExcluded fuel node_to_delete

/-- `LinkedList::erase(firstIncluded, lastExcluded)` (LinkedList.h 219-238). -/
def eraseRange (firstIncluded lastExcluded : ConstIterator) : Op (LinkedList α) Unit := do
  let node_to_delete := firstIncluded.pointed
  let s ← Op.get
  if firstIncluded.pointed = s.first then
    Op.modify fun s => { s with first := lastExcluded.pointed }
  else do
    let fp ← prevOf firstIncluded.pointed
    setNext fp lastExcluded.pointed
  let s ← Op.get
  let node_to_delete ← eraseLoop lastExcluded (s.heap.length + 1) node_to_delete
  let fp ← prevOf firstIncluded.pointed
  let fn ← nextOf firstIncluded.pointed
  setPrev fn fp
  delete node_to_delete
  Op.modify fun s => { s with list_size := decr s.list_size }

/-- `LinkedList::LinkedList(std::initializer_list<Type> l)` (LinkedList.h 46-52):
the appends of the constructor body, run on the state left by `init()`. -/
def appendAll : List α → Op (LinkedList α) Unit
  | [] => Op.pure ()
  | x :: xs => Op.bind (append x) (fun _ => appendAll xs)

/-- `LinkedList::LinkedList(std::initializer_list<Type> l)` (LinkedList.h 46-52). -/
def ofInitList [Inhabited α] (l : List α) : Res (LinkedList α) Unit :=
  appendAll l new

/-- `LinkedList::LinkedList(LinkedList&& other)` (LinkedList.h 62-70): the new
object and the moved-from `other`; both see the same nodes. -/
def moveCtor (other : LinkedList α) : LinkedList α × LinkedList α :=
  ({ heap := other.heap, first := other.first, last := other.last,
     list_size := other.list_size },
   { heap := other.heap, first := none, last := none, list_size := 0 })

namespace ConstIterator

/-- `ConstIterator::operator*` (LinkedList.h 309-313) on an iterator into `l`. -/
def deref (l : LinkedList α) : Op ConstIterator α := fun it =>
  match nodeAt l.heap it.pointed with
  | .error f => .undefined f
  | .ok n => if n.next = none then .thrown .out_of_range it else .ok n.item it

/-- `ConstIterator::operator++()` (LinkedList.h 315-320). -/
def preInc (l : LinkedList α) : Op ConstIterator ConstIterator := fun it =>
  match nodeAt l.heap it.pointed with
  | .error f => .undefined f
  | .ok n =>
    if n.next = none then .thrown .out_of_range it else .ok ⟨n.next⟩ ⟨n.next⟩

/-- `ConstIterator::operator++(int)` (LinkedList.h 322-329). -/
def postInc (l : LinkedList α) : Op ConstIterator ConstIterator := fun it =>
  match nodeAt l.heap it.pointed with
  | .error f => .undefined f
  | .ok n =>
    if n.next = none then .thrown .out_of_range it else .ok it ⟨n.next⟩

/-- `ConstIterator::operator--()` (LinkedList.h 331-336). -/
def preDec (l : LinkedList α) : Op ConstIterator ConstIterator := fun it =>
  match nodeAt l.heap it.pointed with
  | .error f => .undefined f
  | .ok n =>
    if n.previous = none then .thrown .out_of_range it
    else .ok ⟨n.previous⟩ ⟨n.previous⟩

/-- `ConstIterator::operator--(int)` (LinkedList.h 338-344). -/
def postDec (l : LinkedList α) : Op ConstIterator ConstIterator := fun it =>
  match nodeAt l.heap it.pointed with
  | .error f => .undefined f
  | .ok n =>
    if n.previous = none then .thrown .out_of_range it else .ok it ⟨n.previous⟩

/-- The loop of `ConstIterator::operator+` (LinkedList.h 349-354), `d` rounds. -/
def addLoop (l : LinkedList α) (it : ConstIterator) : Nat → Ptr → Res ConstIterator Ptr
  | 0, temp_position => .ok temp_position it
  | d + 1, temp_position =>
    match nodeAt l.heap temp_position with
    | .error f => .undefined f
    | .ok n =>
      if n.next = none then .thrown .out_of_range it else addLoop l it d n.next

/-- `ConstIterator::operator+` (LinkedList.h 346-356); the iterator itself is
not changed, the result is the new iterator. -/
def add (l : LinkedList α) (d : Int) : Op ConstIterator ConstIterator := fun it =>
  match addLoop l it d.toNat it.pointed with
  | .ok p s => .ok ⟨p⟩ s
  | .thrown e s => .thrown e s
  | .undefined f => .undefined f

/-- The loop of `ConstIterator::operator-` (LinkedList.h 361-366), `d` rounds. -/
def subLoop (l : LinkedList α) (it : ConstIterator) : Nat → Ptr → Res ConstIterator Ptr
  | 0, temp_position => .ok temp_position it
  | d + 1, temp_position =>
    match nodeAt l.heap temp_position with
    | .error f => .undefined f
    | .ok n =>
      if n.previous = none then .thrown .out_of_range it
      else subLoop l it d n.previous

/-- `ConstIterator::operator-` (LinkedList.h 358-368). -/
def sub (l : LinkedList α) (d : Int) : Op ConstIterator ConstIterator := fun it =>
  match subLoop l it d.toNat it.pointed with
  | .ok p s => .ok ⟨p⟩ s
  | .thrown e s => .thrown e s
  | .undefined f => .undefined f

end ConstIterator

/-- The client loop `for (it = begin(); it != end(); ++it) out.push_back(*it)`
from the iterator `it` on.  A walk over `fuel = ` number of allocated nodes
steps that has not met `end()` has visited a node twice and never stops. -/
def iterate (l : LinkedList α) : Nat → Op ConstIterator (List α)
  | 0 => fun it => if it = l.end then .ok [] it else .undefined .diverges
  | fuel + 1 => fun it =>
    if it = l.end then .ok [] it
    else
      (do let x ← ConstIterator.deref l
          let _ ← ConstIterator.preInc l
          let rest ← iterate l fuel
          return x :: rest) it

/-- The elements visited by iterating from `begin()` to `end()`. -/
def toList (l : LinkedList α) : Res ConstIterator (List α) :=
  iterate l l.heap.length l.begin

/-- The client loop `for (it = end(); it != begin(); ) out.push_back(*--it)`
from the iterator `it` on. -/
def iterateBack (l : LinkedList α) : Nat → Op ConstIterator (List α)
  | 0 => fun it => if it = l.begin then .ok [] it else .undefined .diverges
  | fuel + 1 => fun it =>
    if it = l.begin then .ok [] it
    else
      (do let _ ← ConstIterator.preDec l
          let x ← ConstIterator.deref l
          let rest ← iterateBack l fuel
          return x :: rest) it

/-- The elements visited by stepping back from `end()` to `begin()`. -/
def toListBack (l : LinkedList α) : Res ConstIterator (List α) :=
  iterateBack l l.heap.length l.end

/-- The link `p->next`, when `p` points to a live node. -/
def linkNext (s : LinkedList α) (p : Ptr) : Option Ptr :=
  match nodeAt s.heap p with
  | .ok n => some n.next
  | .error _ => none

/-- The link `p->previous`, when `p` points to a live node. -/
def linkPrev (s : LinkedList α) (p : Ptr) : Option Ptr :=
  match nodeAt s.heap p with
  | .ok n => some n.previous
  | .error _ => none

/-- The pointer reached from `p` by following `next` exactly `n` times. -/
def nextSteps (s : LinkedList α) : Nat → Ptr → Option Ptr
  | 0, p => some p
  | n + 1, p => (linkNext s p).bind (nextSteps s n)

/-- The pointer reached from `p` by following `previous` exactly `n` times. -/
def prevSteps (s : LinkedList α) : Nat → Ptr → Option Ptr
  | 0, p => some p
  | n + 1, p => (linkPrev s p).bind (prevSteps s n)

/-- The chain invariant of the linked sequence: following `next` from the head
reaches the sentinel after exactly `list_size` steps (and not earlier),
following `previous` from the sentinel reaches the head after exactly
`list_size` steps (and not earlier), the sentinel has no `next` and the head
has no `previous`. -/
def ChainInvariant (s : LinkedList α) : Prop :=
  nextSteps s s.list_size s.first = some s.last ∧
  (∀ k, k < s.list_size → nextSteps s k s.first ≠ some s.last) ∧
  prevSteps s s.list_size s.last = some s.first ∧
  (∀ k, k < s.list_size → prevSteps s k s.last ≠ some s.first) ∧
  linkNext s s.last = some none ∧
  linkPrev s s.first = some none

instance (s : LinkedList α) : Decidable (ChainInvariant s) := by
  unfold ChainInvariant
  infer_instance

/-- The node that `ofInitList l` allocates for the element `x` of index `k`: it
lives at address `k + 1`; `n` is the length of `l`. -/
def initNode (n k : Nat) (x : α) : Node α :=
  { item := x,
    previous := if k = 0 then none else some k,
    next := if k + 1 = n then some 0 else some (k + 2) }

/-- The nodes `ofInitList` allocates for the elements `xs` of indices `k`,
`k + 1`, ... -/
def initCells (n : Nat) : Nat → List α → List (Option (Node α))
  | _, [] => []
  | k, x :: xs => some (initNode n k x) :: initCells n (k + 1) xs

/-- The state `ofInitList l` ends in: the sentinel at address `0`, the node of
the element of index `k` at address `k + 1`. -/
def initState [Inhabited α] (l : List α) : LinkedList α :=
  { heap := some { item := default,
                   previous := if l.length = 0 then none else some l.length,
                   next := none }
      :: initCells l.length 0 l,
    first := if l.length = 0 then some 0 else some 1,
    last := some 0,
    list_size := l.length }

end LinkedList

/-- A statement sequence that never throws a C++ exception. -/
def NoThrow {σ β : Type} (m : Op σ β) : Prop := ∀ s, (m s).thrownState = none

/-! ## Well-formed chains, move assignment, repeated steps -/

/-- The number of values of `size_type` (64 bit). -/
def sizeRange : Nat := 2 ^ 64

namespace LinkedList
variable {α : Type}

/-- In the list built by `ofInitList` from `n` elements: the pointer to the node
of index `k`, the sentinel for `k = n`. -/
def initPos (n k : Nat) : Ptr := if k = n then some 0 else some (k + 1)

/-- The list `s` is a well-formed chain holding `xs`: `pos 0, …, pos (n - 1)`
are the nodes of the `n` elements and `pos n` is the sentinel, all different
and live, linked in both directions, with `first`, `last` and `list_size`
describing them. -/
def Seq (s : LinkedList α) (pos : Nat → Ptr) (xs : List α) : Prop :=
  s.first = pos 0 ∧ s.last = pos xs.length ∧ s.list_size = xs.length ∧
  xs.length < s.heap.length ∧
  (∀ j k, j ≤ xs.length → k ≤ xs.length → pos j = pos k → j = k) ∧
  (∀ k, k ≤ xs.length → ∃ nd, nodeAt s.heap (pos k) = .ok nd ∧
    (k = xs.length ∨ xs[k]? = some nd.item) ∧
    nd.next = (if k = xs.length then none else pos (k + 1)) ∧
    nd.previous = (if k = 0 then none else pos (k - 1)))

end LinkedList

/-- What the caller sees of a call: the value returned, the exception thrown or the fault,
without the final state. -/
def Res.outcome {σ β : Type} : Res σ β → Res Unit β
  | .ok v _ => .ok v ()
  | .thrown e _ => .thrown e ()
  | .undefined f => .undefined f

namespace LinkedList
variable {α : Type}

/-- The loop `while(first != nullptr) { temp = first; first = first->next; delete temp; }`
of the destructor and of both assignment operators (LinkedList.h 103-108).  Each round
deletes a live node, so more rounds than the heap has cells are never made. -/
def destroyLoop : Nat → Op (LinkedList α) Unit
  | 0 => fun s => if s.first = none then .ok () s else .undefined .diverges
  | fuel + 1 => fun s =>
    if s.first = none then .ok () s
    else
      (do let temp := s.first
          let fn ← nextOf s.first
          Op.modify fun s => { s with first := fn }
          delete temp
          destroyLoop fuel) s

/-- `LinkedList::operator=(LinkedList&& other)` (LinkedList.h 99-113) for `this != &other`.
The state is `*this`, whose heap both objects live in; the fields of `other` are only read,
and the value returned is `other` as it stands in the heap after the call. -/
def moveAssign (other : LinkedList α) : Op (LinkedList α) (LinkedList α) := do
  let s ← Op.get
  destroyLoop (s.heap.length + 1)
  Op.modify fun s => { s with list_size := other.list_size }
  Op.modify fun s => { s with first := other.first }
  Op.modify fun s => { s with last := other.last }
  let s ← Op.get
  pure { other with heap := s.heap }

namespace ConstIterator

/-- Repeated single step, as the specification words `it + n`: `operator++` applied `n`
times to a copy of the iterator. -/
def incN (l : LinkedList α) : Nat → Op ConstIterator ConstIterator
  | 0 => fun it => .ok it it
  | n + 1 => Op.bind (preInc l) (fun _ => incN l n)

/-- Repeated single step, as the specification words `it - n`: `operator--` applied `n`
times to a copy of the iterator. -/
def decN (l : LinkedList α) : Nat → Op ConstIterator ConstIterator
  | 0 => fun it => .ok it it
  | n + 1 => Op.bind (preDec l) (fun _ => decN l n)

end ConstIterator
end LinkedList

/-! # Proofs -/

/-! ## Running a sequence of statements -/

theorem Op.bind_apply {σ β γ : Type} (m : Op σ β) (f : β → Op σ γ) (s : σ) :
    (m >>= f) s = match m s with
      | .ok v s1 => f v s1
      | .thrown e s1 => .thrown e s1
      | .undefined u => .undefined u := rfl

theorem Op.pure_apply {σ β : Type} (v : β) (s : σ) :
    (Pure.pure v : Op σ β) s = Res.ok v s := rfl

theorem NoThrow.bind {σ β γ : Type} {m : Op σ β} {f : β → Op σ γ}
    (hm : NoThrow m) (hf : ∀ v, NoThrow (f v)) : NoThrow (m >>= f) := by
  intro s
  have h1 := hm s
  rw [Op.bind_apply]
  cases h : m s with
  | ok v s1 => exact hf v s1
  | thrown e s1 => rw [h] at h1; simp [Res.thrownState] at h1
  | undefined u => rfl

theorem NoThrow.pure {σ β : Type} (v : β) : NoThrow (pure v : Op σ β) := fun _ => rfl

theorem NoThrow.get {σ : Type} : NoThrow (Op.get : Op σ σ) := fun _ => rfl

theorem NoThrow.modify {σ : Type} (f : σ → σ) : NoThrow (Op.modify f) := fun _ => rfl

theorem NoThrow.ite {σ β : Type} {c : Prop} [Decidable c] {m n : Op σ β}
    (hm : NoThrow m) (hn : NoThrow n) : NoThrow (if c then m else n) := by
  split
  · exact hm
  · exact hn

theorem NoThrow.forUp {σ : Type} {body : Nat → Op σ Unit} (h : ∀ i, NoThrow (body i))
    (lo n : Nat) : NoThrow (forUp body lo n) := by
  induction n with
  | zero => exact fun _ => rfl
  | succ n ih => exact NoThrow.bind ih (fun _ => h _)

namespace Vector

variable {α : Type}

theorem noThrow_read (i : Nat) : NoThrow (read i : Op (Vector α) α) := by
  intro v
  unfold read
  cases readCells v.buffer i <;> rfl

theorem noThrow_write (i : Nat) (x : α) : NoThrow (write i x) := by
  intro v
  unfold write
  cases v.buffer with
  | none => rfl
  | some cells => dsimp only; cases writeCells cells i x <;> rfl

theorem vector_thrownState_popFirst (v : Vector α) :
    (popFirst v).thrownState = if v.getSize = 0 then some (Exn.logic_error, v) else none := by
  unfold popFirst
  simp only [Op.bind_apply, Op.get, isEmpty, getSize, beq_iff_eq]
  split
  · rfl
  · exact NoThrow.bind (noThrow_read 0) (fun _ =>
      NoThrow.bind (NoThrow.forUp (fun _ =>
        NoThrow.bind (noThrow_read _) (fun _ => noThrow_write _ _)) _ _) (fun _ =>
        NoThrow.bind (NoThrow.modify _) (fun _ => NoThrow.pure _))) v

theorem vector_thrownState_popLast (v : Vector α) :
    (popLast v).thrownState = if v.getSize = 0 then some (Exn.logic_error, v) else none := by
  unfold popLast
  simp only [Op.bind_apply, Op.get, isEmpty, getSize, beq_iff_eq]
  split
  · rfl
  · exact NoThrow.bind (NoThrow.modify _) (fun _ =>
      NoThrow.bind NoThrow.get (fun _ =>
        NoThrow.bind (noThrow_read _) (fun _ => NoThrow.pure _))) v

end Vector

namespace LinkedList

variable {α : Type}

theorem noThrow_load (p : Ptr) : NoThrow (load p : Op (LinkedList α) (Node α)) := by
  intro s
  unfold load
  cases nodeAt s.heap p <;> rfl

theorem noThrow_store (p : Ptr) (f : Node α → Node α) : NoThrow (store p f) := by
  intro s
  unfold store
  split
  · rfl
  · split <;> rfl

theorem noThrow_delete (p : Ptr) : NoThrow (delete p : Op (LinkedList α) Unit) := by
  intro s
  unfold delete
  split
  · rfl
  · split <;> rfl

theorem noThrow_prevOf (p : Ptr) : NoThrow (prevOf p : Op (LinkedList α) Ptr) :=
  NoThrow.bind (noThrow_load p) (fun _ => NoThrow.pure _)

theorem noThrow_nextOf (p : Ptr) : NoThrow (nextOf p : Op (LinkedList α) Ptr) :=
  NoThrow.bind (noThrow_load p) (fun _ => NoThrow.pure _)

theorem noThrow_itemOf (p : Ptr) : NoThrow (itemOf p : Op (LinkedList α) α) :=
  NoThrow.bind (noThrow_load p) (fun _ => NoThrow.pure _)

theorem noThrow_setPrev (p q : Ptr) : NoThrow (setPrev p q : Op (LinkedList α) Unit) :=
  noThrow_store _ _

theorem noThrow_setNext (p q : Ptr) : NoThrow (setNext p q : Op (LinkedList α) Unit) :=
  noThrow_store _ _

theorem list_thrownState_popFirst (s : LinkedList α) :
    (popFirst s).thrownState = if s.getSize = 0 then some (Exn.logic_error, s) else none := by
  unfold popFirst
  simp only [Op.bind_apply, Op.get, getSize]
  split
  · rfl
  · refine (?_ : NoThrow _) s
    have tail : ∀ value : α, NoThrow (do
        let s1 ← (Op.get : Op (LinkedList α) (LinkedList α))
        setPrev s1.first none
        delete s.first
        Op.modify fun s => { s with list_size := decr s.list_size }
        pure value) := by
      intro value
      apply NoThrow.bind NoThrow.get; intro s1
      apply NoThrow.bind (noThrow_setPrev _ _); intro u1
      apply NoThrow.bind (noThrow_delete _); intro u2
      exact NoThrow.bind (NoThrow.modify _) (fun _ => NoThrow.pure _)
    apply NoThrow.bind (noThrow_itemOf _); intro value
    apply NoThrow.ite
    · exact NoThrow.bind (NoThrow.modify _) (fun _ => tail value)
    · apply NoThrow.bind (noThrow_nextOf _); intro fn
      exact NoThrow.bind (NoThrow.modify _) (fun _ => tail value)

theorem list_thrownState_popLast (s : LinkedList α) :
    (popLast s).thrownState = if s.getSize = 0 then some (Exn.logic_error, s) else none := by
  unfold popLast
  simp only [Op.bind_apply, Op.get, getSize]
  split
  · rfl
  · refine (?_ : NoThrow _) s
    have tail : ∀ (value : α) (node_to_delete : Ptr), NoThrow (do
        delete node_to_delete
        Op.modify fun (s : LinkedList α) => { s with list_size := decr s.list_size }
        pure value) := by
      intro value node_to_delete
      apply NoThrow.bind (noThrow_delete _); intro u2
      exact NoThrow.bind (NoThrow.modify _) (fun _ => NoThrow.pure _)
    apply NoThrow.bind (noThrow_prevOf _); intro lp
    apply NoThrow.bind (noThrow_itemOf _); intro value
    apply NoThrow.bind (noThrow_prevOf _); intro node_to_delete
    apply NoThrow.ite
    · apply NoThrow.bind (NoThrow.modify _); intro u
      exact NoThrow.bind (noThrow_setPrev _ _) (fun _ => tail _ _)
    · apply NoThrow.bind (noThrow_prevOf _); intro lp1
      apply NoThrow.bind (noThrow_prevOf _); intro lpp
      apply NoThrow.bind (noThrow_setPrev _ _); intro u
      apply NoThrow.bind (noThrow_prevOf _); intro lp2
      apply NoThrow.bind (noThrow_prevOf _); intro lpp2
      exact NoThrow.bind (noThrow_setNext _ _) (fun _ => tail _ _)

end LinkedList

namespace LinkedList
variable {α : Type}

theorem load_eq (s : LinkedList α) (a : Nat) (n : Node α)
    (h : s.heap[a]? = some (some n)) : load (some a) s = .ok n s := by
  simp [load, nodeAt, h]

theorem prevOf_eq (s : LinkedList α) (a : Nat) (n : Node α)
    (h : s.heap[a]? = some (some n)) : prevOf (some a) s = .ok n.previous s := by
  simp only [prevOf, Op.bind_apply, load_eq s a n h]
  rfl

theorem nextOf_eq (s : LinkedList α) (a : Nat) (n : Node α)
    (h : s.heap[a]? = some (some n)) : nextOf (some a) s = .ok n.next s := by
  simp only [nextOf, Op.bind_apply, load_eq s a n h]
  rfl

theorem itemOf_eq (s : LinkedList α) (a : Nat) (n : Node α)
    (h : s.heap[a]? = some (some n)) : itemOf (some a) s = .ok n.item s := by
  simp only [itemOf, Op.bind_apply, load_eq s a n h]
  rfl

theorem store_eq (s : LinkedList α) (a : Nat) (n : Node α) (f : Node α → Node α)
    (h : s.heap[a]? = some (some n)) :
    store (some a) f s = .ok () { s with heap := s.heap.set a (some (f n)) } := by
  simp [store, h]

theorem setPrev_eq (s : LinkedList α) (a : Nat) (n : Node α) (q : Ptr)
    (h : s.heap[a]? = some (some n)) :
    setPrev (some a) q s
      = .ok () { s with heap := s.heap.set a (some { n with previous := q }) } :=
  store_eq s a n _ h

theorem setNext_eq (s : LinkedList α) (a : Nat) (n : Node α) (q : Ptr)
    (h : s.heap[a]? = some (some n)) :
    setNext (some a) q s
      = .ok () { s with heap := s.heap.set a (some { n with next := q }) } :=
  store_eq s a n _ h

theorem append_empty [Inhabited α] (x : α) :
    append x (initState ([] : List α)) = .ok () (initState [x]) := by
  rfl

/-- Effect of `append` on a non-empty list whose sentinel `a` and last real
node `b` are live. -/
theorem append_of_links {s : LinkedList α} {a b : Nat} {S Y : Node α} (x : α)
    (hsize : s.list_size ≠ 0) (hlast : s.last = some a)
    (ha : s.heap[a]? = some (some S)) (hprev : S.previous = some b)
    (hb : s.heap[b]? = some (some Y)) (hab : a ≠ b) :
    append x s = .ok ()
      { heap := ((s.heap.set b (some { Y with next := some s.heap.length })).set a
                  (some { S with previous := some s.heap.length }))
                  ++ [some { item := x, previous := some b, next := some a }],
        first := s.first, last := s.last, list_size := s.list_size + 1 } := by
  have hal : a < s.heap.length := by
    by_contra hh
    rw [List.getElem?_eq_none (by omega)] at ha
    exact absurd ha (by simp)
  have hbl : b < s.heap.length := by
    by_contra hh
    rw [List.getElem?_eq_none (by omega)] at hb
    exact absurd hb (by simp)
  unfold append
  simp only [Op.bind_apply, alloc, Op.get, if_neg hsize, Op.modify, Op.pure_apply, hlast]
  rw [prevOf_eq _ a S (by simp [List.getElem?_append_left hal, ha])]
  simp only [hprev]
  rw [setNext_eq _ b Y _ (by simp [List.getElem?_append_left hbl, hb])]
  simp only []
  rw [prevOf_eq _ a S (by
    simp [List.getElem?_set, List.getElem?_append_left hal, ha, Ne.symm hab])]
  simp only [hprev]
  rw [setPrev_eq _ s.heap.length ⟨x, none, none⟩ _ (by
    simp [List.getElem?_set, Nat.ne_of_lt hbl])]
  simp only []
  rw [setPrev_eq _ a S _ (by
    simp [List.getElem?_set, List.getElem?_append_left hal, ha, Ne.symm hab,
      Nat.ne_of_gt hal])]
  simp only []
  rw [setNext_eq _ s.heap.length ⟨x, some b, none⟩ _ (by
    simp [List.getElem?_set, Nat.ne_of_lt hbl, Nat.ne_of_lt hal, hal, hbl])]
  simp only [Res.ok.injEq, true_and, LinkedList.mk.injEq, and_true]
  apply List.ext_getElem?
  intro i
  rcases Nat.lt_trichotomy i s.heap.length with hi | hi | hi
  · have h1 : s.heap.length ≠ i := by omega
    simp [List.getElem?_set, List.getElem?_append_left, hi, h1, hal, hbl]
  · subst hi
    simp [List.getElem?_set, List.getElem?_append_right, hal, hbl]
  · have h1 : s.heap.length ≠ i := by omega
    have h2 : a ≠ i := by omega
    have h3 : b ≠ i := by omega
    simp [List.getElem?_set, h1, h2, h3, List.getElem?_append_right, Nat.le_of_lt hi]
    rw [List.getElem?_eq_none (by simp; omega), List.getElem?_eq_none (by simp; omega)]

end LinkedList

namespace LinkedList
variable {α : Type}

theorem length_initCells (n k : Nat) (xs : List α) : (initCells n k xs).length = xs.length := by
  induction xs generalizing k with
  | nil => rfl
  | cons x xs ih => simp [initCells, ih]

theorem getElem?_initCells (n k : Nat) (xs : List α) (i : Nat) :
    (initCells n k xs)[i]? = xs[i]?.map (fun x => some (initNode n (k + i) x)) := by
  induction xs generalizing k i with
  | nil => simp [initCells]
  | cons x xs ih =>
    cases i with
    | zero => simp [initCells]
    | succ i =>
      simp only [initCells, List.getElem?_cons_succ, ih]
      congr 1
      funext y
      congr 2
      omega

/-- The heap `append` leaves on the state built from a non-empty `l` is the heap
of the state built from `l ++ [x]`. -/
theorem heap_append_initState [Inhabited α] (l : List α) (x : α) (hne : l.length ≠ 0)
    (hlast : l.length - 1 < l.length) :
    ((some (⟨default, some l.length, none⟩ : Node α) :: initCells l.length 0 l).set l.length
        (some { initNode l.length (l.length - 1) (l[l.length - 1]) with
                next := some (l.length + 1) })).set 0
        (some ⟨default, some (l.length + 1), none⟩)
      ++ [some ⟨x, some l.length, some 0⟩]
    = some ⟨default, some (l.length + 1), none⟩ :: initCells (l.length + 1) 0 (l ++ [x]) := by
  apply List.ext_getElem?
  intro i
  cases i with
  | zero =>
    rw [List.getElem?_append_left (by simp [length_initCells]), List.getElem?_set]
    simp
  | succ j =>
    rcases Nat.lt_trichotomy j l.length with hj | hj | hj
    · have hj1 : j + 1 < l.length + 1 := by omega
      rw [List.getElem?_append_left (by simp [length_initCells]; omega)]
      simp only [List.getElem?_set, List.getElem?_cons_succ, getElem?_initCells,
        List.length_cons, length_initCells, List.length_set, Nat.zero_add,
        List.getElem?_append_left hj, List.getElem?_eq_getElem hj, Option.map_some']
      have h0 : ¬ (0 = j + 1) := by omega
      rw [if_neg h0]
      by_cases hjl : l.length = j + 1
      · have hj2 : j = l.length - 1 := by omega
        subst hj2
        have h3 : ¬ (l.length - 1 + 1 = l.length + 1) := by omega
        simp [hjl.symm, initNode, h3]
      · have h3 : ¬ (j + 1 = l.length) := fun h => hjl h.symm
        have h4 : ¬ (j + 1 = l.length + 1) := by omega
        simp [hjl, initNode, h3, h4]
    · subst hj
      rw [List.getElem?_append_right (by simp [length_initCells])]
      simp only [List.length_set, List.length_cons, length_initCells, Nat.sub_self,
        List.getElem?_cons_zero, List.getElem?_cons_succ, getElem?_initCells,
        List.getElem?_concat_length, Option.map_some', initNode, Nat.zero_add, if_neg hne,
        if_true]
    · rw [List.getElem?_eq_none (by simp [length_initCells]; omega),
        List.getElem?_eq_none (by simp [length_initCells]; omega)]

theorem append_initState [Inhabited α] (l : List α) (x : α) :
    append x (initState l) = .ok () (initState (l ++ [x])) := by
  rcases Nat.eq_zero_or_pos l.length with h0 | hpos
  · have hl : l = [] := List.length_eq_zero.mp h0
    subst hl
    rfl
  · have hne : l.length ≠ 0 := by omega
    have hlast : l.length - 1 < l.length := by omega
    have hsent : (initState l).heap[0]?
        = some (some (⟨default, some l.length, none⟩ : Node α)) := by
      simp [initState, hne]
    have hy : (initState l).heap[l.length]?
        = some (some (initNode l.length (l.length - 1) (l[l.length - 1]))) := by
      have e : l.length = (l.length - 1) + 1 := by omega
      conv_lhs => rw [e]
      simp only [initState, List.getElem?_cons_succ, getElem?_initCells,
        List.getElem?_eq_getElem hlast, Option.map_some', Nat.zero_add]
    rw [append_of_links x (by simpa [initState] using hne) rfl hsent rfl hy (by omega)]
    simp only [initState, Res.ok.injEq, true_and, LinkedList.mk.injEq, List.length_cons,
      length_initCells, List.length_append, List.length_singleton, if_neg hne,
      Nat.add_eq_zero, one_ne_zero, and_false, if_false, and_true, List.length_nil,
      Nat.zero_add]
    exact heap_append_initState l x hne hlast

theorem appendAll_initState [Inhabited α] (l xs : List α) :
    appendAll xs (initState l) = .ok () (initState (l ++ xs)) := by
  induction xs generalizing l with
  | nil => simp [appendAll, Op.pure]
  | cons x xs ih =>
    simp only [appendAll, Op.bind, append_initState]
    rw [ih]
    simp

theorem ofInitList_initState [Inhabited α] (l : List α) :
    ofInitList l = .ok () (initState l) := by
  have h := appendAll_initState ([] : List α) l
  simpa [ofInitList] using h

theorem nodeAt_initState [Inhabited α] (l : List α) (k : Nat) (hk : k < l.length) :
    nodeAt (initState l).heap (some (k + 1)) = .ok (initNode l.length k l[k]) := by
  simp [nodeAt, initState, getElem?_initCells, List.getElem?_eq_getElem hk]

theorem deref_initState [Inhabited α] (l : List α) (k : Nat) (hk : k < l.length) :
    ConstIterator.deref (initState l) ⟨some (k + 1)⟩ = .ok l[k] ⟨some (k + 1)⟩ := by
  have hnn : (initNode l.length k l[k]).next ≠ none := by
    simp only [initNode]; split <;> simp
  simp only [ConstIterator.deref, nodeAt_initState l k hk, if_neg hnn]
  rfl

theorem preInc_initState [Inhabited α] (l : List α) (k : Nat) (hk : k < l.length) :
    ConstIterator.preInc (initState l) ⟨some (k + 1)⟩
      = .ok ⟨if k + 1 = l.length then some 0 else some (k + 1 + 1)⟩
          ⟨if k + 1 = l.length then some 0 else some (k + 1 + 1)⟩ := by
  have hnn : (initNode l.length k l[k]).next ≠ none := by
    simp only [initNode]; split <;> simp
  simp only [ConstIterator.preInc, nodeAt_initState l k hk, if_neg hnn]
  rfl

theorem iterate_initState [Inhabited α] (l : List α) :
    ∀ (m k fuel : Nat), k + m = l.length → m ≤ fuel →
      iterate (initState l) fuel ⟨if k = l.length then some 0 else some (k + 1)⟩
        = .ok (l.drop k) ⟨some 0⟩ := by
  intro m
  induction m with
  | zero =>
    intro k fuel hk _
    have hk1 : k = l.length := by omega
    subst hk1
    cases fuel <;> simp [iterate, LinkedList.end, initState]
  | succ m ih =>
    intro k fuel hk hfuel
    obtain ⟨f, rfl⟩ : ∃ f, fuel = f + 1 := ⟨fuel - 1, by omega⟩
    have hk1 : k < l.length := by omega
    have hk2 : ¬ (k = l.length) := by omega
    have hend : (⟨some (k + 1)⟩ : ConstIterator) ≠ (initState l).end := by
      simp [LinkedList.end, initState]
    have hrec := ih (k + 1) f (by omega) (by omega)
    rw [List.drop_eq_getElem_cons hk1]
    simp only [if_neg hk2, iterate, if_neg hend, Op.bind_apply, deref_initState l k hk1,
      preInc_initState l k hk1, hrec]
    rfl

theorem toList_initState [Inhabited α] (l : List α) :
    toList (initState l) = .ok l ⟨some 0⟩ := by
  have h := iterate_initState l l.length 0 (initState l).heap.length (by omega)
    (by simp [initState, length_initCells])
  rw [List.drop_zero] at h
  rw [toList, ← h]
  congr 1
  by_cases h0 : l.length = 0
  · simp [LinkedList.begin, initState, h0]
  · have h1 : ¬ (0 = l.length) := fun h => h0 h.symm
    simp [LinkedList.begin, initState, h0, h1]

end LinkedList

namespace Vector
variable {α : Type}

theorem set_take_drop (src dst : List α) (n : Nat) (hn : n < src.length)
    (hd : n < dst.length) :
    (src.take n ++ dst.drop n).set n src[n] = src.take (n + 1) ++ dst.drop (n + 1) := by
  have hl : (src.take n).length = n := by simp [Nat.min_eq_left (Nat.le_of_lt hn)]
  rw [List.set_append_right _ _ (by omega), hl, Nat.sub_self, List.drop_eq_getElem_cons hd,
    List.set_cons_zero, List.take_succ, List.getElem?_eq_getElem hn]
  simp only [Option.toList, List.append_assoc, List.singleton_append]

theorem copyElems_eq (src : List α) (n : Nat) (dst : List α)
    (hs : n ≤ src.length) (hd : n ≤ dst.length) :
    copyElems (some src) n dst = .ok (src.take n ++ dst.drop n) := by
  induction n with
  | zero => simp [copyElems]
  | succ n ih =>
    have hn : n < src.length := by omega
    have hlen : n < (List.take n src ++ List.drop n dst).length := by
      simp; omega
    simp only [copyElems, ih (by omega) (by omega), readCells, List.getElem?_eq_getElem hn,
      writeCells, if_pos hlen, set_take_drop src dst n hn (by omega)]

theorem iterate_eq (v : Vector α) (cells : List α) (hb : v.buffer = some cells) :
    ∀ (n pos : Nat), pos + n ≤ cells.length →
      iterate v pos n = .ok ((cells.drop pos).take n) := by
  intro n
  induction n with
  | zero => intro pos _; simp [iterate]
  | succ n ih =>
    intro pos h
    have hp : pos < cells.length := by omega
    simp only [iterate, hb, readCells, List.getElem?_eq_getElem hp, ih (pos + 1) (by omega)]
    rw [List.drop_eq_getElem_cons hp, List.take_succ_cons]

theorem toList_of_holds {v : Vector α} {l : List α} (h : Holds v l) : toList v = .ok l := by
  obtain ⟨hsize, cells, hb, _, hle, htake⟩ := h
  rw [toList, iterate_eq v cells hb _ 0 (by omega), hsize]
  simpa using htake

theorem ofInitList_cells [Inhabited α] (l : List α) :
    ofInitList l = .ok () ⟨l.length, l.length, some l, 0⟩ := by
  simp [ofInitList, copyElems_eq l l.length (List.replicate l.length default) (le_refl _)
    (by simp)]

theorem holds_ofInitList (l : List α) : Holds (⟨l.length, l.length, some l, 0⟩ : Vector α) l :=
  ⟨rfl, l, rfl, rfl, le_refl _, by simp⟩

end Vector

namespace Vector
variable {α : Type}

theorem write_eq (v : Vector α) (cells : List α) (i : Nat) (x : α)
    (hb : v.buffer = some cells) (hi : i < cells.length) :
    write i x v = .ok () { v with buffer := some (cells.set i x) } := by
  simp [write, hb, writeCells, hi]

end Vector

/-! ## Vector: removal and capacity -/

theorem decr_succ (n : Nat) (h : n < sizeRange) : decr (n + 1) = n := by
  unfold decr
  have e : n + 1 + (2 ^ 64 - 1) = n + 2 ^ 64 := by
    have : 1 ≤ 2 ^ 64 := Nat.one_le_two_pow
    omega
  rw [e, Nat.add_mod_right]
  exact Nat.mod_eq_of_lt h

namespace Vector
variable {α : Type}

theorem state_eta (v : Vector α) (cells : List α) (hb : v.buffer = some cells) :
    (⟨v.vector_size, v.buffer_size, some cells, v.stamp⟩ : Vector α) = v := by
  cases v
  simp_all

/-- One round of a shift loop: slot `p + 1` of `src[0..p) ++ dst[p..)` is
`dst[p + 1]`. -/
theorem getElem?_take_drop_succ (src dst : List α) (p : Nat) (hp : p ≤ src.length)
    (hd : p + 1 < dst.length) :
    (src.take p ++ dst.drop p)[p + 1]? = some dst[p + 1] := by
  have hl : (src.take p).length = p := by simp [Nat.min_eq_left hp]
  rw [List.getElem?_append_right (by omega), hl, List.getElem?_drop]
  have e : p + (p + 1 - p) = p + 1 := by omega
  rw [e, List.getElem?_eq_getElem hd]

theorem read_eq (v : Vector α) (cells : List α) (i : Nat) (x : α)
    (hb : v.buffer = some cells) (hi : cells[i]? = some x) :
    read i v = .ok x v := by
  simp [read, readCells, hb, hi]

end Vector
namespace Vector
variable {α : Type}
/-- The loop of `popFirst`: after `k` rounds the block is
`cells[1..k+1) ++ cells[k..)`. -/
theorem forUp_shift (s b t : Nat) (cells : List α) :
    ∀ k, k + 1 ≤ cells.length →
      forUp (fun i => do let x ← read i; write (i - 1) x) 1 k
          (⟨s, b, some cells, t⟩ : Vector α)
        = .ok () ⟨s, b, some ((cells.drop 1).take k ++ cells.drop k), t⟩ := by
  intro k
  induction k with
  | zero => intro _; simp [forUp, Op.pure]
  | succ k ih =>
    intro hk
    have hsrc : k < (cells.drop 1).length := by simp; omega
    have hx : (cells.drop 1)[k] = cells[k + 1] := by
      simp [List.getElem_drop, Nat.add_comm]
    simp only [forUp, Op.bind, ih (by omega)]
    simp only [Op.bind_apply]
    rw [read_eq _ _ (1 + k) (cells[k + 1]) rfl (by
      rw [Nat.add_comm 1 k]
      exact getElem?_take_drop_succ _ _ k (by omega) (by omega))]
    simp only []
    rw [write_eq _ _ _ _ rfl (by simp; omega)]
    simp only [Nat.add_sub_cancel_left, ← hx, set_take_drop (cells.drop 1) cells k hsrc (by omega)]

end Vector
namespace Vector
variable {α : Type}
/-- Effect of `popFirst` on a non-empty vector. -/
theorem popFirst_holds (v : Vector α) (a : α) (rest : List α)
    (h : Holds v (a :: rest)) (hfit : (a :: rest).length < sizeRange) :
    ∃ w, popFirst v = .ok a w ∧ Holds w rest ∧ w.getSize + 1 = v.getSize ∧
      w.buffer_size = v.buffer_size ∧ w.stamp = v.stamp := by
  obtain ⟨hsize, cells, hb, hlen, hle, htake⟩ := h
  simp only [List.length_cons] at hsize hle htake hfit
  have hne : ¬ (v.isEmpty = true) := by simp [isEmpty, hsize]
  have hpos : 0 < cells.length := by omega
  have h0 : cells[0]? = some a := by
    have := congrArg (fun l : List α => l[0]?) htake
    simpa [List.getElem?_take] using this
  have hv : v = ⟨rest.length + 1, v.buffer_size, some cells, v.stamp⟩ := by
    rw [← hsize]; exact (state_eta v cells hb).symm
  have hrun : popFirst v = .ok a ⟨rest.length, v.buffer_size,
      some ((cells.drop 1).take rest.length ++ cells.drop rest.length), v.stamp⟩ := by
    unfold popFirst
    simp only [Op.bind_apply, Op.get, if_neg hne, read_eq v cells 0 a hb h0]
    rw [hsize, Nat.add_sub_cancel]
    conv_lhs => rw [hv]
    rw [forUp_shift _ _ _ cells rest.length (by omega)]
    simp only [Op.modify, Op.pure_apply, decr_succ rest.length (by omega)]
  refine ⟨_, hrun, ⟨rfl, _, rfl, ?_, ?_, ?_⟩, ?_, rfl, rfl⟩
  · simp; omega
  · simp; omega
  · have hl : (List.take rest.length (List.drop 1 cells)).length = rest.length := by
      simp; omega
    rw [List.take_left' hl]
    have := congrArg (List.drop 1) htake
    simpa [List.drop_take] using this
  · simp [getSize, hsize]

end Vector
namespace Vector
variable {α : Type}
end Vector

namespace Vector
variable {α : Type}

theorem getElem?_take_drop_ge (src dst : List α) (p q : Nat) (hp : p ≤ src.length)
    (hpq : p ≤ q) : (src.take p ++ dst.drop p)[q]? = dst[q]? := by
  have hl : (src.take p).length = p := by simp [Nat.min_eq_left hp]
  rw [List.getElem?_append_right (by omega), hl, List.getElem?_drop]
  congr 1
  omega

theorem derefRead_eq (v : Vector α) (cells : List α) (i : Nat) (x : α)
    (hb : v.buffer = some cells) (hi : cells[i]? = some x) :
    derefRead ⟨v.stamp, i⟩ v = .ok x v := by
  simp [derefRead, read_eq v cells i x hb hi]

theorem derefWrite_eq (v : Vector α) (cells : List α) (i : Nat) (x : α)
    (hb : v.buffer = some cells) (hi : i < cells.length) :
    derefWrite ⟨v.stamp, i⟩ x v = .ok () { v with buffer := some (cells.set i x) } := by
  simp [derefWrite, write_eq v cells i x hb hi]

/-- The cells `cells[0..i) ++ cells[j..)`: slot `p ≥ i` holds `cells[p + (j - i)]`. -/
theorem getElem?_take_append_drop (cells : List α) (i j p : Nat) (hi : i ≤ cells.length)
    (hp : i ≤ p) :
    (cells.take i ++ cells.drop j)[p]? = cells[j + (p - i)]? := by
  have hl : (cells.take i).length = i := by simp [Nat.min_eq_left hi]
  rw [List.getElem?_append_right (by omega), hl, List.getElem?_drop]

/-- The loop of `erase(first, last)` from round `t` on; `c` elements of the tail
have been copied so far. -/
theorem eraseLoop2_run (cells : List α) (b st i j n : Nat) (hij : i ≤ j) (hjn : j ≤ n)
    (hn : n ≤ cells.length) (hfit : n < sizeRange) :
    ∀ d t c fuel, t + d = j - i → d ≤ fuel →
      ((t ≤ n - j ∧ c = t) ∨ (n - j ≤ t ∧ c = n - j)) →
      eraseLoop2 ⟨st, j⟩ ⟨st, n⟩ fuel ⟨st, i + t⟩ ⟨st, j + c⟩
          (⟨n - t, b, some ((cells.take i ++ cells.drop j).take (i + c)
            ++ cells.drop (i + c)), st⟩ : Vector α)
        = .ok () ⟨n - (j - i), b,
            some ((cells.take i ++ cells.drop j).take
                (i + (if j - i ≤ n - j then j - i else n - j))
              ++ cells.drop (i + (if j - i ≤ n - j then j - i else n - j))), st⟩ := by
  intro d
  induction d with
  | zero =>
    intro t c fuel ht _ hc
    have hpos : (⟨st, i + t⟩ : ConstIterator) = ⟨st, j⟩ := by
      congr 1; omega
    have hcf : (if j - i ≤ n - j then j - i else n - j) = c := by
      split <;> omega
    have hsz : n - t = n - (j - i) := by omega
    rw [hcf, ← hsz]
    cases fuel <;> simp only [eraseLoop2, if_pos hpos]
  | succ d ih =>
    intro t c fuel ht hfuel hc
    obtain ⟨f, rfl⟩ : ∃ f, fuel = f + 1 := ⟨fuel - 1, by omega⟩
    have hpos : (⟨st, i + t⟩ : ConstIterator) ≠ ⟨st, j⟩ := by
      intro h
      have := congrArg ConstIterator.position h
      simp at this
      omega
    have hsrc : (cells.take i ++ cells.drop j).length = cells.length - (j - i) := by
      simp; omega
    simp only [eraseLoop2, if_neg hpos]
    by_cases hcopy : t < n - j
    · have hct : c = t := by omega
      subst hct
      have hne : (⟨st, j + c⟩ : ConstIterator) ≠ ⟨st, n⟩ := by
        intro h
        have := congrArg ConstIterator.position h
        simp at this
        omega
      have hq : j + c < cells.length := by omega
      have hread : ((cells.take i ++ cells.drop j).take (i + c)
          ++ cells.drop (i + c))[j + c]? = some cells[j + c] := by
        rw [getElem?_take_drop_ge _ _ _ _ (by omega) (by omega),
          List.getElem?_eq_getElem hq]
      have hp : i + c < (cells.take i ++ cells.drop j).length := by omega
      have hsrcp : (cells.take i ++ cells.drop j)[i + c] = cells[j + c] := by
        have h1 := getElem?_take_append_drop cells i j (i + c) (by omega) (by omega)
        rw [List.getElem?_eq_getElem hp, Nat.add_sub_cancel_left,
          List.getElem?_eq_getElem hq] at h1
        exact Option.some.inj h1
      simp only [Op.bind_apply, if_pos hne]
      rw [derefRead_eq ⟨n - c, b, _, st⟩ _ (j + c) cells[j + c] rfl hread]
      simp only []
      rw [derefWrite_eq ⟨n - c, b, _, st⟩ _ (i + c) cells[j + c] rfl (by simp; omega)]
      simp only [Op.pure_apply, Op.modify, ConstIterator.add]
      rw [← hsrcp, set_take_drop _ cells (i + c) hp (by omega)]
      have hdec : decr (n - c) = n - (c + 1) := by
        have e : n - c = (n - (c + 1)) + 1 := by omega
        rw [e, decr_succ _ (by omega)]
      rw [hdec]
      exact ih (c + 1) (c + 1) f (by omega) (by omega) (Or.inl ⟨by omega, rfl⟩)
    · have hcm : c = n - j := by omega
      have heq : ¬ ((⟨st, j + c⟩ : ConstIterator) ≠ ⟨st, n⟩) := by
        intro h
        apply h
        congr 1
        omega
      simp only [Op.bind_apply, if_neg heq, Op.pure_apply, Op.modify, ConstIterator.add]
      have hdec : decr (n - t) = n - (t + 1) := by
        have e : n - t = (n - (t + 1)) + 1 := by omega
        rw [e, decr_succ _ (by omega)]
      rw [hdec]
      exact ih (t + 1) c f (by omega) (by omega) (Or.inr ⟨by omega, hcm⟩)

end Vector

namespace Vector
variable {α : Type}

/-- The loop of `erase(position)` from slot `p` on. -/
theorem eraseLoop1_run (cells : List α) (b st i n : Nat) (hn : n ≤ cells.length) :
    ∀ d p fuel, p + 1 + d = n → i ≤ p → d ≤ fuel →
      eraseLoop1 fuel ⟨st, p⟩
          (⟨n, b, some ((cells.take i ++ cells.drop (i + 1)).take p ++ cells.drop p), st⟩ :
            Vector α)
        = .ok ⟨st, n - 1⟩
            ⟨n, b, some ((cells.take i ++ cells.drop (i + 1)).take (n - 1)
              ++ cells.drop (n - 1)), st⟩ := by
  intro d
  induction d with
  | zero =>
    intro p fuel hp _ _
    have hp1 : p = n - 1 := by omega
    subst hp1
    have hend : (ConstIterator.add ⟨st, n - 1⟩ 1 : ConstIterator)
        = (⟨n, b, some ((cells.take i ++ cells.drop (i + 1)).take (n - 1)
              ++ cells.drop (n - 1)), st⟩ : Vector α).end := by
      simp only [ConstIterator.add, Vector.end]
      congr 1
    cases fuel <;> simp only [eraseLoop1, if_pos hend]
  | succ d ih =>
    intro p fuel hp hip hfuel
    obtain ⟨f, rfl⟩ : ∃ f, fuel = f + 1 := ⟨fuel - 1, by omega⟩
    have hend : ¬ ((⟨st, p + 1⟩ : ConstIterator)
        = (⟨n, b, some ((cells.take i ++ cells.drop (i + 1)).take p
              ++ cells.drop p), st⟩ : Vector α).end) := by
      intro h
      have := congrArg ConstIterator.position h
      simp [Vector.end] at this
      omega
    have hsrc : (cells.take i ++ cells.drop (i + 1)).length = cells.length - 1 := by
      simp; omega
    have hq : p + 1 < cells.length := by omega
    have hread : ((cells.take i ++ cells.drop (i + 1)).take p ++ cells.drop p)[p + 1]?
        = some cells[p + 1] := by
      rw [getElem?_take_drop_ge _ _ _ _ (by omega) (by omega), List.getElem?_eq_getElem hq]
    have hpl : p < (cells.take i ++ cells.drop (i + 1)).length := by omega
    have hsrcp : (cells.take i ++ cells.drop (i + 1))[p] = cells[p + 1] := by
      have h1 := getElem?_take_append_drop cells i (i + 1) p (by omega) hip
      have e : i + 1 + (p - i) = p + 1 := by omega
      rw [List.getElem?_eq_getElem hpl, e, List.getElem?_eq_getElem hq] at h1
      exact Option.some.inj h1
    simp only [eraseLoop1, ConstIterator.add, if_neg hend, Op.bind_apply]
    rw [derefRead_eq ⟨n, b, _, st⟩ _ (p + 1) cells[p + 1] rfl hread]
    simp only []
    rw [derefWrite_eq ⟨n, b, _, st⟩ _ p cells[p + 1] rfl (by simp; omega)]
    simp only []
    rw [← hsrcp, set_take_drop _ cells p hpl (by omega)]
    exact ih (p + 1) f (by omega) (by omega) (by omega)

theorem take_append_drop_take (cells : List α) (i : Nat) (hi : i ≤ cells.length) :
    (cells.take i ++ cells.drop (i + 1)).take i ++ cells.drop i = cells := by
  have hl : (cells.take i).length = i := by simp [Nat.min_eq_left hi]
  rw [List.take_left' hl, List.take_append_drop]

/-- Effect of `erase(begin() + i)` for `i < |l|`. -/
theorem erase_holds (v : Vector α) (l : List α) (i : Nat) (h : Holds v l)
    (hi : i < l.length) (hfit : l.length < sizeRange) :
    ∃ w, erase (v.begin.add i) v = .ok () w ∧ Holds w (l.take i ++ l.drop (i + 1)) ∧
      w.getSize + 1 = v.getSize ∧ w.buffer_size = v.buffer_size ∧ w.stamp = v.stamp := by
  obtain ⟨hsize, cells, hb, hlen, hle, htake⟩ := h
  have hv : v = ⟨l.length, v.buffer_size,
      some ((cells.take i ++ cells.drop (i + 1)).take i ++ cells.drop i), v.stamp⟩ := by
    rw [take_append_drop_take cells i (by omega), ← hsize]
    exact (state_eta v cells hb).symm
  have hrun : erase (v.begin.add i) v = .ok () ⟨l.length - 1, v.buffer_size,
      some ((cells.take i ++ cells.drop (i + 1)).take (l.length - 1)
        ++ cells.drop (l.length - 1)), v.stamp⟩ := by
    have hfuel : l.length - 1 - i ≤ v.blockSize + 1 := by
      simp only [blockSize, hb]; omega
    have hloop := eraseLoop1_run cells v.buffer_size v.stamp i l.length hle
      (l.length - 1 - i) i (v.blockSize + 1) (by omega) (le_refl _) hfuel
    rw [← hv] at hloop
    have hd : decr l.length = l.length - 1 := by
      have e : l.length = (l.length - 1) + 1 := by omega
      rw [e, decr_succ _ (by omega)]
      rfl
    unfold erase
    simp only [Op.bind_apply, Op.get, Vector.begin, ConstIterator.add, Nat.zero_add, hloop,
      Op.modify]
    rw [hd]
  refine ⟨_, hrun, ⟨?_, _, rfl, ?_, ?_, ?_⟩, ?_, rfl, rfl⟩
  · simp; omega
  · simp; omega
  · simp; omega
  · have hl : ((cells.take i ++ cells.drop (i + 1)).take (l.length - 1)).length
        = (l.take i ++ l.drop (i + 1)).length := by
      simp; omega
    rw [← hl, List.take_left, ← htake]
    simp only [List.take_take, List.drop_take]
    rw [List.take_append_eq_append_take]
    simp only [List.length_take, List.take_take]
    congr 1
    · congr 1; omega
    · congr 1; omega
  · simp [getSize, hsize]; omega

end Vector

namespace Vector
variable {α : Type}

/-- Effect of `erase(begin() + i, begin() + j)` for `i ≤ j ≤ |l|`: the call
succeeds, the size drops by `j - i`, the capacity stays; `c` is the number of
tail elements the loop has moved. -/
theorem eraseRange_run (v : Vector α) (l : List α) (i j : Nat) (h : Holds v l)
    (hij : i ≤ j) (hj : j ≤ l.length) (hfit : l.length < sizeRange) :
    ∃ cells, v.buffer = some cells ∧ l.length ≤ cells.length ∧ cells.take l.length = l ∧
      cells.length = v.buffer_size ∧
      eraseRange (v.begin.add i) (v.begin.add j) v
        = .ok () ⟨l.length - (j - i), v.buffer_size,
            some ((cells.take i ++ cells.drop j).take
                (i + (if j - i ≤ l.length - j then j - i else l.length - j))
              ++ cells.drop (i + (if j - i ≤ l.length - j then j - i else l.length - j))),
            v.stamp⟩ := by
  obtain ⟨hsize, cells, hb, hlen, hle, htake⟩ := h
  refine ⟨cells, hb, hle, htake, hlen, ?_⟩
  have hv : v = ⟨l.length - 0, v.buffer_size,
      some ((cells.take i ++ cells.drop j).take (i + 0) ++ cells.drop (i + 0)), v.stamp⟩ := by
    have hl : (cells.take i).length = i := by simp; omega
    rw [Nat.add_zero, Nat.sub_zero, List.take_left' hl, List.take_append_drop, ← hsize]
    exact (state_eta v cells hb).symm
  have hloop := eraseLoop2_run cells v.buffer_size v.stamp i j l.length hij hj hle hfit
    (j - i) 0 0 (j - i) (by omega) (le_refl _) (Or.inl ⟨by omega, rfl⟩)
  rw [← hv] at hloop
  unfold eraseRange
  simp only [Op.bind_apply, Op.get, Vector.begin, Vector.end, ConstIterator.add, Nat.zero_add,
    Nat.add_sub_cancel_left]
  rw [hsize]
  simpa using hloop

/-- When the tail is no longer than the erased range (or the range is empty),
`erase(begin() + i, begin() + j)` leaves `l[0..i) ++ l[j..)`. -/
theorem eraseRange_holds (v : Vector α) (l : List α) (i j : Nat) (h : Holds v l)
    (hij : i ≤ j) (hj : j ≤ l.length) (hfit : l.length < sizeRange)
    (htail : i = j ∨ l.length - j ≤ j - i) :
    ∃ w, eraseRange (v.begin.add i) (v.begin.add j) v = .ok () w ∧
      Holds w (l.take i ++ l.drop j) ∧ w.getSize = l.length - (j - i) ∧
      w.buffer_size = v.buffer_size := by
  obtain ⟨cells, hb, hle, htake, hlen, hrun⟩ := eraseRange_run v l i j h hij hj hfit
  have hl : (cells.take i).length = i := by simp; omega
  refine ⟨_, hrun, ⟨?_, _, rfl, ?_, ?_, ?_⟩, rfl, rfl⟩
  · simp; omega
  · simp; split <;> omega
  · simp; split <;> omega
  · have hc : (if j - i ≤ l.length - j then j - i else l.length - j) = l.length - j ∨
        ((if j - i ≤ l.length - j then j - i else l.length - j) = 0 ∧ i = j) := by
      split <;> omega
    have hlen2 : (l.take i ++ l.drop j).length = i + (l.length - j) := by
      simp; omega
    rcases hc with hc | ⟨hc, hij2⟩
    · rw [hc, hlen2]
      have hl2 : ((cells.take i ++ cells.drop j).take (i + (l.length - j))).length
          = i + (l.length - j) := by
        simp; omega
      rw [List.take_left' hl2, ← htake]
      simp only [List.take_take, List.drop_take]
      rw [List.take_append_eq_append_take]
      simp only [List.length_take, List.take_take]
      congr 1
      · congr 1; omega
      · congr 1; omega
    · subst hij2
      simp only [hc, Nat.add_zero, List.take_left' hl, List.take_append_drop, htake]

end Vector

namespace Vector
variable {α : Type}

end Vector

namespace Vector
variable {α : Type}

theorem head_of_holds (v : Vector α) (a : α) (rest : List α) (h : Holds v (a :: rest)) :
    derefRead v.begin v = .ok a v := by
  obtain ⟨_, cells, hb, _, _, htake⟩ := h
  have h0 : cells[0]? = some a := by
    have h1 : (List.take (a :: rest).length cells)[0]? = (a :: rest)[0]? := by rw [htake]
    rw [List.getElem?_take, if_pos (by simp)] at h1
    simpa using h1
  exact derefRead_eq v cells 0 a hb h0

end Vector

/-! ## LinkedList: well-formed chains -/

namespace LinkedList
variable {α : Type}

theorem nodeAt_ok_iff (heap : List (Option (Node α))) (p : Ptr) (nd : Node α) :
    nodeAt heap p = .ok nd ↔ ∃ a, p = some a ∧ heap[a]? = some (some nd) := by
  cases p with
  | none => simp [nodeAt]
  | some a =>
    simp only [nodeAt, Option.some.injEq, exists_eq_left']
    split
    · next n h => simp [h]
    · next h =>
      constructor
      · intro h1; cases h1
      · intro h1; exact absurd h1 (h nd)

theorem Seq.node {s : LinkedList α} {pos : Nat → Ptr} {xs : List α} (h : Seq s pos xs)
    (k : Nat) (hk : k ≤ xs.length) :
    ∃ a nd, pos k = some a ∧ s.heap[a]? = some (some nd) ∧ a < s.heap.length ∧
      nodeAt s.heap (pos k) = .ok nd ∧
      (k = xs.length ∨ xs[k]? = some nd.item) ∧
      nd.next = (if k = xs.length then none else pos (k + 1)) ∧
      nd.previous = (if k = 0 then none else pos (k - 1)) := by
  obtain ⟨nd, hnd, hitem, hnext, hprev⟩ := h.2.2.2.2.2 k hk
  obtain ⟨a, ha, hget⟩ := (nodeAt_ok_iff _ _ _).mp hnd
  have hlt : a < s.heap.length := by
    by_contra hh
    rw [List.getElem?_eq_none (by omega)] at hget
    exact absurd hget (by simp)
  exact ⟨a, nd, ha, hget, hlt, hnd, hitem, hnext, hprev⟩

theorem Seq.inj {s : LinkedList α} {pos : Nat → Ptr} {xs : List α} (h : Seq s pos xs)
    {j k : Nat} (hj : j ≤ xs.length) (hk : k ≤ xs.length) (e : pos j = pos k) : j = k :=
  h.2.2.2.2.1 j k hj hk e

/-- `*it` at the position of index `k`. -/
theorem Seq.deref {s : LinkedList α} {pos : Nat → Ptr} {xs : List α} (h : Seq s pos xs)
    (k : Nat) (hk : k ≤ xs.length) :
    ConstIterator.deref s ⟨pos k⟩
      = match xs[k]? with
        | some x => .ok x ⟨pos k⟩
        | none => .thrown .out_of_range ⟨pos k⟩ := by
  obtain ⟨a, nd, _, _, _, hnd, hitem, hnext, _⟩ := h.node k hk
  simp only [ConstIterator.deref, hnd, hnext]
  by_cases hkn : k = xs.length
  · subst hkn
    simp
  · have hlt : k < xs.length := by omega
    obtain ⟨b, _, hb, _⟩ := h.node (k + 1) (by omega)
    rcases hitem with h1 | h1
    · exact absurd h1 hkn
    · simp [hkn, hb, h1]

/-- `++it` at the position of index `k`. -/
theorem Seq.preInc {s : LinkedList α} {pos : Nat → Ptr} {xs : List α} (h : Seq s pos xs)
    (k : Nat) (hk : k ≤ xs.length) :
    ConstIterator.preInc s ⟨pos k⟩
      = if k = xs.length then .thrown .out_of_range ⟨pos k⟩
        else .ok ⟨pos (k + 1)⟩ ⟨pos (k + 1)⟩ := by
  obtain ⟨a, nd, _, _, _, hnd, _, hnext, _⟩ := h.node k hk
  simp only [ConstIterator.preInc, hnd, hnext]
  by_cases hkn : k = xs.length
  · simp [hkn]
  · obtain ⟨b, _, hb, _⟩ := h.node (k + 1) (by omega)
    simp [hkn, hb]

/-- `it++` at the position of index `k`. -/
theorem Seq.postInc {s : LinkedList α} {pos : Nat → Ptr} {xs : List α} (h : Seq s pos xs)
    (k : Nat) (hk : k ≤ xs.length) :
    ConstIterator.postInc s ⟨pos k⟩
      = if k = xs.length then .thrown .out_of_range ⟨pos k⟩
        else .ok ⟨pos k⟩ ⟨pos (k + 1)⟩ := by
  obtain ⟨a, nd, _, _, _, hnd, _, hnext, _⟩ := h.node k hk
  simp only [ConstIterator.postInc, hnd, hnext]
  by_cases hkn : k = xs.length
  · simp [hkn]
  · obtain ⟨b, _, hb, _⟩ := h.node (k + 1) (by omega)
    simp [hkn, hb]

/-- `--it` at the position of index `k`. -/
theorem Seq.preDec {s : LinkedList α} {pos : Nat → Ptr} {xs : List α} (h : Seq s pos xs)
    (k : Nat) (hk : k ≤ xs.length) :
    ConstIterator.preDec s ⟨pos k⟩
      = if k = 0 then .thrown .out_of_range ⟨pos k⟩
        else .ok ⟨pos (k - 1)⟩ ⟨pos (k - 1)⟩ := by
  obtain ⟨a, nd, _, _, _, hnd, _, _, hprev⟩ := h.node k hk
  simp only [ConstIterator.preDec, hnd, hprev]
  by_cases hk0 : k = 0
  · simp [hk0]
  · obtain ⟨b, _, hb, _⟩ := h.node (k - 1) (by omega)
    simp [hk0, hb]

/-- `it--` at the position of index `k`. -/
theorem Seq.postDec {s : LinkedList α} {pos : Nat → Ptr} {xs : List α} (h : Seq s pos xs)
    (k : Nat) (hk : k ≤ xs.length) :
    ConstIterator.postDec s ⟨pos k⟩
      = if k = 0 then .thrown .out_of_range ⟨pos k⟩
        else .ok ⟨pos k⟩ ⟨pos (k - 1)⟩ := by
  obtain ⟨a, nd, _, _, _, hnd, _, _, hprev⟩ := h.node k hk
  simp only [ConstIterator.postDec, hnd, hprev]
  by_cases hk0 : k = 0
  · simp [hk0]
  · obtain ⟨b, _, hb, _⟩ := h.node (k - 1) (by omega)
    simp [hk0, hb]

/-- The loop of `operator+` from the position of index `k`. -/
theorem Seq.addLoop {s : LinkedList α} {pos : Nat → Ptr} {xs : List α} (h : Seq s pos xs)
    (it : ConstIterator) :
    ∀ (d k : Nat), k + d ≤ xs.length →
      ConstIterator.addLoop s it d (pos k) = .ok (pos (k + d)) it := by
  intro d
  induction d with
  | zero => intro k _; rfl
  | succ d ih =>
    intro k hk
    obtain ⟨a, nd, _, _, _, hnd, _, hnext, _⟩ := h.node k (by omega)
    obtain ⟨b, _, hb, _⟩ := h.node (k + 1) (by omega)
    have hkn : ¬ (k = xs.length) := by omega
    rw [if_neg hkn] at hnext
    have hnn : ¬ (pos (k + 1) = none) := by rw [hb]; simp
    have e : k + 1 + d = k + (d + 1) := by omega
    simp only [ConstIterator.addLoop, hnd, hnext, if_neg hnn, ih (k + 1) (by omega), e]

/-- `begin() + k` is the position of index `k`. -/
theorem Seq.add_begin {s : LinkedList α} {pos : Nat → Ptr} {xs : List α} (h : Seq s pos xs)
    (k : Nat) (hk : k ≤ xs.length) :
    ConstIterator.add s k s.begin = .ok ⟨pos k⟩ s.begin := by
  have h1 := h.addLoop s.begin k 0 (by omega)
  have h2 : s.begin.pointed = pos 0 := h.1
  simp only [ConstIterator.add, Int.toNat_ofNat, h2, h1, Nat.zero_add]

/-- The forward walk from the position of index `k`. -/
theorem Seq.iterate {s : LinkedList α} {pos : Nat → Ptr} {xs : List α} (h : Seq s pos xs) :
    ∀ (m k fuel : Nat), k + m = xs.length → m ≤ fuel →
      LinkedList.iterate s fuel ⟨pos k⟩ = .ok (xs.drop k) s.end := by
  intro m
  induction m with
  | zero =>
    intro k fuel hk _
    have hk1 : k = xs.length := by omega
    subst hk1
    have hend : (⟨pos xs.length⟩ : ConstIterator) = s.end := by
      simp [LinkedList.end, h.2.1]
    cases fuel <;> simp [LinkedList.iterate, hend]
  | succ m ih =>
    intro k fuel hk hfuel
    obtain ⟨f, rfl⟩ : ∃ f, fuel = f + 1 := ⟨fuel - 1, by omega⟩
    have hk1 : k < xs.length := by omega
    have hk2 : ¬ (k = xs.length) := by omega
    have hend : (⟨pos k⟩ : ConstIterator) ≠ s.end := by
      intro e
      have e1 : pos k = pos xs.length := by
        have := congrArg ConstIterator.pointed e
        simpa [LinkedList.end, h.2.1] using this
      exact hk2 (h.inj (by omega) (le_refl _) e1)
    have hd := h.deref k (by omega)
    rw [List.getElem?_eq_getElem hk1] at hd
    have hi := h.preInc k (by omega)
    rw [if_neg hk2] at hi
    rw [List.drop_eq_getElem_cons hk1]
    simp only [LinkedList.iterate, if_neg hend, Op.bind_apply, hd, hi,
      ih (k + 1) f (by omega) (by omega)]
    rfl

/-- Iterating a well-formed chain from `begin()` to `end()` yields its elements. -/
theorem Seq.toList {s : LinkedList α} {pos : Nat → Ptr} {xs : List α} (h : Seq s pos xs) :
    LinkedList.toList s = .ok xs s.end := by
  have h1 := h.iterate xs.length 0 s.heap.length (by omega) (Nat.le_of_lt h.2.2.2.1)
  rw [List.drop_zero] at h1
  rw [LinkedList.toList, ← h1]
  congr 1
  simp [LinkedList.begin, h.1]

end LinkedList

namespace LinkedList
variable {α : Type}

theorem delete_eq (s : LinkedList α) (a : Nat) (n : Node α)
    (h : s.heap[a]? = some (some n)) :
    delete (some a) s = .ok () { s with heap := s.heap.set a none } := by
  simp [delete, h]

theorem initPos_inj (n j k : Nat) (e : initPos n j = initPos n k) : j = k := by
  unfold initPos at e
  split at e <;> split at e <;> simp at e <;> omega

/-- The state built by the initializer-list constructor is a well-formed chain. -/
theorem seq_initState [Inhabited α] (l : List α) :
    Seq (initState l) (initPos l.length) l := by
  refine ⟨?_, ?_, rfl, ?_, ?_, ?_⟩
  · simp only [initState, initPos]
    by_cases h0 : l.length = 0
    · simp [h0]
    · have h1 : ¬ (0 = l.length) := fun e => h0 e.symm
      simp [h0, h1]
  · simp [initState, initPos]
  · simp [initState, length_initCells]
  · intro j k _ _ e
    exact initPos_inj _ j k e
  · intro k hk
    by_cases hkn : k = l.length
    · subst hkn
      refine ⟨⟨default, if l.length = 0 then none else some l.length, none⟩, ?_, Or.inl rfl,
        by simp, ?_⟩
      · simp [initPos, nodeAt, initState]
      · by_cases h0 : l.length = 0
        · simp [h0]
        · have h1 : ¬ (l.length - 1 = l.length) := by omega
          simp only [if_neg h0, initPos, if_neg h1]
          congr 1
          omega
    · have hlt : k < l.length := by omega
      refine ⟨initNode l.length k l[k], ?_, Or.inr ?_, ?_, ?_⟩
      · simp only [initPos, if_neg hkn]
        exact nodeAt_initState l k hlt
      · simp [initNode, List.getElem?_eq_getElem hlt]
      · simp only [initNode, initPos, if_neg hkn]
      · by_cases h0 : k = 0
        · simp [initNode, h0]
        · have h1 : ¬ (k - 1 = l.length) := by omega
          simp only [initNode, if_neg h0, initPos, if_neg h1]
          congr 1
          omega

theorem getElem?_of_seq_ne {s : LinkedList α} {pos : Nat → Ptr} {xs : List α}
    (h : Seq s pos xs) {j k a b : Nat} (hj : j ≤ xs.length) (hk : k ≤ xs.length)
    (ha : pos j = some a) (hb : pos k = some b) (hjk : j ≠ k) : a ≠ b := by
  intro e
  subst e
  exact hjk (h.inj hj hk (ha.trans hb.symm))

end LinkedList

namespace LinkedList
variable {α : Type}

/-- The statements of `popFirst` after `first` has been rebound. -/
theorem popFirst_tail (s : LinkedList α) (a0 a1 : Nat) (nd0 nd1 : Node α) (value : α)
    (n : Nat) (hfit : n < sizeRange) (hsize : s.list_size = n + 1)
    (h0 : s.heap[a0]? = some (some nd0)) (h1 : s.heap[a1]? = some (some nd1))
    (hne : a1 ≠ a0) :
    (do let s1 ← (Op.get : Op (LinkedList α) (LinkedList α))
        setPrev s1.first none
        delete (some a0)
        Op.modify fun s => { s with list_size := decr s.list_size }
        pure value) ({ s with first := some a1 } : LinkedList α)
      = .ok value
          { heap := (s.heap.set a1 (some { nd1 with previous := none })).set a0 none,
            first := some a1, last := s.last, list_size := n } := by
  have hl1 : a1 < s.heap.length := by
    by_contra hh
    rw [List.getElem?_eq_none (by omega)] at h1
    exact absurd h1 (by simp)
  simp only [Op.bind_apply, Op.get]
  rw [setPrev_eq ⟨s.heap, some a1, s.last, s.list_size⟩ a1 nd1 none h1]
  simp only []
  rw [delete_eq ⟨_, some a1, s.last, s.list_size⟩ a0 nd0
    (by simp [List.getElem?_set, hne, h0])]
  simp only [Op.modify, Op.pure_apply]
  rw [hsize, decr_succ n hfit]

/-- Effect of `popFirst` on a well-formed non-empty chain. -/
theorem popFirst_seq (s : LinkedList α) (pos : Nat → Ptr) (a : α) (rest : List α)
    (h : Seq s pos (a :: rest)) (hfit : (a :: rest).length < sizeRange) :
    ∃ w, popFirst s = .ok a w ∧ Seq w (fun k => pos (k + 1)) rest ∧
      w.getSize + 1 = s.getSize := by
  obtain ⟨a0, nd0, hp0, hg0, hl0, _, hitem0, hnext0, hprev0⟩ := h.node 0 (by simp)
  obtain ⟨a1, nd1, hp1, hg1, hl1, _, hitem1, hnext1, hprev1⟩ := h.node 1 (by simp)
  have hne : a1 ≠ a0 := getElem?_of_seq_ne h (by simp) (by simp) hp1 hp0 (by decide)
  have hsize : s.list_size = rest.length + 1 := h.2.2.1
  have hfirst : s.first = some a0 := h.1.trans hp0
  have hval : nd0.item = a := by
    rcases hitem0 with e | e
    · simp at e
    · simpa using e.symm
  have hfit1 : rest.length < sizeRange := by
    simp only [List.length_cons] at hfit
    omega
  have hs0 : ¬ (s.list_size = 0) := by omega
  have htail := popFirst_tail s a0 a1 nd0 nd1 a rest.length hfit1 hsize hg0 hg1 hne
  have hrun : popFirst s = .ok a
      { heap := (s.heap.set a1 (some { nd1 with previous := none })).set a0 none,
        first := some a1, last := s.last, list_size := rest.length } := by
    unfold popFirst
    simp only [Op.bind_apply, Op.get, if_neg hs0, hfirst, itemOf_eq s a0 nd0 hg0, hval]
    by_cases hone : s.list_size = 1
    · have hr : rest.length = 0 := by omega
      have hlast : s.last = some a1 := by
        rw [h.2.1, ← hp1]
        simp [hr]
      simp only [if_pos hone, Op.bind_apply, Op.modify, hlast]
      simp only [hlast] at htail
      exact htail
    · have hnx : nd0.next = some a1 := by
        rw [hnext0, ← hp1]
        simp
      simp only [if_neg hone, Op.bind_apply, nextOf_eq s a0 nd0 hg0, hnx, Op.modify]
      exact htail
  refine ⟨_, hrun, ⟨?_, ?_, rfl, ?_, ?_, ?_⟩, ?_⟩
  · exact hp1.symm
  · simpa using h.2.1
  · have := h.2.2.2.1
    simp only [List.length_cons] at this
    simp only [List.length_set]
    omega
  · intro j k hj hk e
    have := h.inj (show j + 1 ≤ (a :: rest).length by simpa using hj)
      (show k + 1 ≤ (a :: rest).length by simpa using hk) e
    omega
  · intro k hk
    obtain ⟨b, nd, hpb, hgb, hlb, _, hitem, hnext, hprev⟩ :=
      h.node (k + 1) (by simpa using hk)
    have hb0 : b ≠ a0 :=
      getElem?_of_seq_ne h (by simpa using hk) (by simp) hpb hp0 (by omega)
    by_cases hk0 : k = 0
    · subst hk0
      have hba : b = a1 := Option.some.inj (hpb.symm.trans hp1)
      subst hba
      have hg : nd = nd1 := by
        have := hgb.symm.trans hg1
        simpa using this
      subst hg
      refine ⟨{ nd with previous := none }, ?_, ?_, ?_, by simp⟩
      · simp only [Nat.zero_add]
        rw [hpb]
        apply (nodeAt_ok_iff _ _ _).mpr
        refine ⟨b, rfl, ?_⟩
        rw [List.getElem?_set_ne (fun e => hb0 e.symm), List.getElem?_set_self hlb]
      · rcases hitem with e | e
        · left
          simp only [List.length_cons] at e
          omega
        · right; simpa using e
      · simp only [hnext, List.length_cons]
        by_cases hr : rest.length = 0
        · simp [hr]
        · have h2 : ¬ (0 = rest.length) := fun e => hr e.symm
          simp [hr, h2]
    · have hb1 : b ≠ a1 :=
        getElem?_of_seq_ne h (by simpa using hk) (by simp) hpb hp1 (by omega)
      refine ⟨nd, ?_, ?_, ?_, ?_⟩
      · simp only []
        rw [hpb]
        apply (nodeAt_ok_iff _ _ _).mpr
        refine ⟨b, rfl, ?_⟩
        rw [List.getElem?_set_ne (fun e => hb0 e.symm),
          List.getElem?_set_ne (fun e => hb1 e.symm), hgb]
      · rcases hitem with e | e
        · left
          simp only [List.length_cons] at e
          omega
        · right; simpa using e
      · simp only [hnext, List.length_cons]
        by_cases hr : k = rest.length
        · simp [hr]
        · simp [hr]
      · simp only [hprev, if_neg hk0]
        simp
        congr 1
        omega
  · simp [getSize, hsize]

end LinkedList

namespace LinkedList
variable {α : Type}

theorem getElem?_insert_at (xs : List α) (x : α) (i k : Nat) (hi : i ≤ xs.length) :
    (xs.take i ++ x :: xs.drop i)[k]?
      = if k < i then xs[k]? else if k = i then some x else xs[k - 1]? := by
  have hl : (xs.take i).length = i := by simp [Nat.min_eq_left hi]
  by_cases h1 : k < i
  · rw [if_pos h1, List.getElem?_append_left (by omega), List.getElem?_take, if_pos h1]
  · rw [if_neg h1, List.getElem?_append_right (by omega), hl]
    by_cases h2 : k = i
    · subst h2
      simp
    · rw [if_neg h2]
      obtain ⟨m, hm⟩ : ∃ m, k - i = m + 1 := ⟨k - i - 1, by omega⟩
      rw [hm, List.getElem?_cons_succ, List.getElem?_drop]
      congr 1
      omega

/-- The run of `insert` before the position of index `i`. -/
theorem insert_run (s : LinkedList α) (pos : Nat → Ptr) (xs : List α) (x : α) (i : Nat)
    (h : Seq s pos xs) (hi : i ≤ xs.length) :
    ∃ w ap ndp, pos i = some ap ∧ s.heap[ap]? = some (some ndp) ∧
      insert ⟨pos i⟩ x s = .ok () w ∧
      w.first = (if i = 0 then some s.heap.length else s.first) ∧ w.last = s.last ∧
      w.list_size = s.list_size + 1 ∧ w.heap.length = s.heap.length + 1 ∧
      w.heap[s.heap.length]? = some (some ⟨x, ndp.previous, pos i⟩) ∧
      w.heap[ap]? = some (some { ndp with previous := some s.heap.length }) ∧
      (∀ aq ndq, 0 < i → pos (i - 1) = some aq → s.heap[aq]? = some (some ndq) →
        w.heap[aq]? = some (some { ndq with next := some s.heap.length })) ∧
      (∀ b nd, s.heap[b]? = some (some nd) → b ≠ ap → (i = 0 ∨ pos (i - 1) ≠ some b) →
        w.heap[b]? = some (some nd)) := by
  obtain ⟨ap, ndp, hpp, hgp, hlp, _, _, _, hprevp⟩ := h.node i hi
  rw [hpp]
  have hnew : (s.heap ++ [some (⟨x, ndp.previous, some ap⟩ : Node α)])[ap]?
      = some (some ndp) := by
    rw [List.getElem?_append_left hlp, hgp]
  by_cases hi0 : i = 0
  · subst hi0
    have hpnone : ndp.previous = none := by simpa using hprevp
    rw [hpnone] at hnew
    refine ⟨{ heap := (s.heap ++ [some (⟨x, none, some ap⟩ : Node α)]).set ap
                (some { ndp with previous := some s.heap.length }),
              first := some s.heap.length, last := s.last,
              list_size := s.list_size + 1 }, ap, ndp, rfl, hgp, ?_, by simp, rfl, rfl,
            by simp, ?_, ?_, ?_, ?_⟩
    · unfold insert
      simp only [Op.bind_apply, prevOf_eq s ap ndp hgp, alloc, hpnone]
      rw [prevOf_eq ⟨_, s.first, s.last, s.list_size⟩ ap ndp hnew]
      simp only [hpnone, if_true, Op.bind_apply, Op.modify]
      rw [setPrev_eq ⟨_, _, s.last, s.list_size⟩ ap ndp _ hnew]
    · rw [List.getElem?_set_ne (by omega), List.getElem?_append_right (le_refl _)]
      simp [hpnone]
    · rw [List.getElem?_set_self (by simp; omega)]
    · intro aq ndq hpos
      exact absurd hpos (by decide)
    · intro b nd hb hne _
      have hbl : b < s.heap.length := by
        by_contra hh
        rw [List.getElem?_eq_none (by omega)] at hb
        exact absurd hb (by simp)
      rw [List.getElem?_set_ne (fun e => hne e.symm), List.getElem?_append_left hbl, hb]
  · obtain ⟨aq, ndq, hpq, hgq, hlq, _, _, _, _⟩ := h.node (i - 1) (by omega)
    have hqp : aq ≠ ap := getElem?_of_seq_ne h (by omega) hi hpq hpp (by omega)
    have hprev : ndp.previous = some aq := by
      rw [hprevp, if_neg hi0, hpq]
    have hnewq : (s.heap ++ [some (⟨x, some aq, some ap⟩ : Node α)])[aq]?
        = some (some ndq) := by
      rw [List.getElem?_append_left hlq, hgq]
    rw [hprev] at hnew
    refine ⟨{ heap := ((s.heap ++ [some (⟨x, some aq, some ap⟩ : Node α)]).set aq
                (some { ndq with next := some s.heap.length })).set ap
                (some { ndp with previous := some s.heap.length }),
              first := s.first, last := s.last,
              list_size := s.list_size + 1 }, ap, ndp, rfl, hgp, ?_, by simp [hi0], rfl, rfl,
            by simp, ?_, ?_, ?_, ?_⟩
    · unfold insert
      simp only [Op.bind_apply, prevOf_eq s ap ndp hgp, alloc, hprev]
      rw [prevOf_eq ⟨_, s.first, s.last, s.list_size⟩ ap ndp hnew]
      have hnn : ¬ (some aq = (none : Ptr)) := by simp
      simp only [hprev, if_neg hnn, Op.bind_apply]
      rw [setNext_eq ⟨_, s.first, s.last, s.list_size⟩ aq ndq _ hnewq]
      simp only []
      rw [setPrev_eq ⟨_, s.first, s.last, s.list_size⟩ ap ndp _ (by
        rw [List.getElem?_set_ne hqp, hnew])]
      simp [Op.modify]
    · rw [List.getElem?_set_ne (by omega), List.getElem?_set_ne (by omega),
        List.getElem?_append_right (le_refl _)]
      simp [hprev]
    · rw [List.getElem?_set_self (by simp; omega)]
    · intro aq2 ndq2 _ hpq2 hgq2
      have e : aq2 = aq := Option.some.inj (hpq2.symm.trans hpq)
      subst e
      have e2 : ndq2 = ndq := by
        have := hgq2.symm.trans hgq
        simpa using this
      subst e2
      rw [List.getElem?_set_ne (Ne.symm hqp), List.getElem?_set_self (by simp; omega)]
    · intro b nd hb hne hq
      have hbl : b < s.heap.length := by
        by_contra hh
        rw [List.getElem?_eq_none (by omega)] at hb
        exact absurd hb (by simp)
      have hbq : aq ≠ b := by
        rcases hq with e | e
        · exact absurd e hi0
        · intro e2
          exact e (by rw [hpq, e2])
      rw [List.getElem?_set_ne (fun e => hne e.symm), List.getElem?_set_ne hbq,
        List.getElem?_append_left hbl, hb]

end LinkedList

namespace LinkedList
variable {α : Type}

/-- After `insert` before index `i` the chain holds the list with `x` put in at `i`; the new
node is the cell appended to the heap. -/
theorem insert_seq_aux (s : LinkedList α) (pos pos1 : Nat → Ptr) (xs : List α) (x : α)
    (i : Nat) (h : Seq s pos xs) (hi : i ≤ xs.length)
    (p1lt : ∀ k, k < i → pos1 k = pos k) (p1eq : pos1 i = some s.heap.length)
    (p1gt : ∀ k, i < k → pos1 k = pos (k - 1)) :
    ∃ w, insert ⟨pos i⟩ x s = .ok () w ∧ Seq w pos1 (xs.take i ++ x :: xs.drop i) ∧
      w.getSize = s.getSize + 1 := by
  obtain ⟨w, ap, ndp, hpp, hgp, hrun, hfirst, hlast, hsize, hlen, hL, hP, hQ, hO⟩ :=
    insert_run s pos xs x i h hi
  have hlen1 : (xs.take i ++ x :: xs.drop i).length = xs.length + 1 := by
    simp only [List.length_append, List.length_take, List.length_cons, List.length_drop,
      Nat.min_eq_left hi]
    omega
  have hposlt : ∀ k, k ≤ xs.length → pos k ≠ some s.heap.length := by
    intro k hk e
    obtain ⟨a, nd, hpa, _, hla, _⟩ := h.node k hk
    rw [hpa] at e
    have := Option.some.inj e
    omega
  obtain ⟨ap0, ndp0, hpp0, hgp0, _, _, hitemp, hnextp, hprevp⟩ := h.node i hi
  have eap : ap = ap0 := Option.some.inj (hpp.symm.trans hpp0)
  subst eap
  have endp : ndp = ndp0 := by
    have := hgp.symm.trans hgp0
    simpa using this
  subst endp
  refine ⟨w, hrun, ⟨?_, ?_, ?_, ?_, ?_, ?_⟩, ?_⟩
  · rw [hfirst]
    by_cases hi0 : i = 0
    · rw [if_pos hi0, ← p1eq, hi0]
    · rw [if_neg hi0, p1lt 0 (by omega), h.1]
  · rw [hlast, hlen1, h.2.1, p1gt _ (by omega)]
    rfl
  · rw [hsize, hlen1, h.2.2.1]
  · rw [hlen, hlen1]
    have := h.2.2.2.1
    omega
  · intro j k hj hk e
    rw [hlen1] at hj hk
    rcases lt_trichotomy j i with hji | hji | hji <;>
      rcases lt_trichotomy k i with hki | hki | hki
    · rw [p1lt j hji, p1lt k hki] at e
      exact h.inj (by omega) (by omega) e
    · rw [p1lt j hji, hki, p1eq] at e
      exact absurd e (hposlt j (by omega))
    · rw [p1lt j hji, p1gt k hki] at e
      have := h.inj (by omega) (by omega) e
      omega
    · rw [hji, p1eq, p1lt k hki] at e
      exact absurd e.symm (hposlt k (by omega))
    · omega
    · rw [hji, p1eq, p1gt k hki] at e
      exact absurd e.symm (hposlt (k - 1) (by omega))
    · rw [p1gt j hji, p1lt k hki] at e
      have := h.inj (by omega) (by omega) e
      omega
    · rw [p1gt j hji, hki, p1eq] at e
      exact absurd e (hposlt (j - 1) (by omega))
    · rw [p1gt j hji, p1gt k hki] at e
      have := h.inj (by omega) (by omega) e
      omega
  · intro k hk
    rw [hlen1] at hk
    rw [hlen1, getElem?_insert_at xs x i k hi]
    rcases lt_trichotomy k i with hki | hki | hki
    · obtain ⟨b, nd, hpb, hgb, hlb, _, hitem, hnext, hprev⟩ := h.node k (by omega)
      have hbp : b ≠ ap := getElem?_of_seq_ne h (by omega) hi hpb hpp (by omega)
      have hkn : ¬ (k = xs.length + 1) := by omega
      have hkx : ¬ (k = xs.length) := by omega
      have hit : xs[k]? = some nd.item := by
        rcases hitem with e | e
        · exact absurd e hkx
        · exact e
      have hpv : nd.previous = if k = 0 then none else pos1 (k - 1) := by
        rw [hprev]
        by_cases hk0 : k = 0
        · rw [if_pos hk0, if_pos hk0]
        · rw [if_neg hk0, if_neg hk0, p1lt (k - 1) (by omega)]
      rw [p1lt k hki, if_pos hki, if_neg hkn]
      by_cases hk1 : k + 1 = i
      · have hq : pos (i - 1) = some b := by
          have e : i - 1 = k := by omega
          rw [e, hpb]
        refine ⟨{ nd with next := some s.heap.length },
          (nodeAt_ok_iff _ _ _).2 ⟨b, hpb, hQ b nd (by omega) hq hgb⟩, Or.inr hit, ?_, hpv⟩
        rw [hk1, p1eq]
      · have hq : pos (i - 1) ≠ some b := by
          intro e
          have := h.inj (show i - 1 ≤ xs.length by omega) (show k ≤ xs.length by omega)
            (e.trans hpb.symm)
          omega
        refine ⟨nd, (nodeAt_ok_iff _ _ _).2 ⟨b, hpb, hO b nd hgb hbp (Or.inr hq)⟩,
          Or.inr hit, ?_, hpv⟩
        rw [hnext, if_neg hkx, p1lt (k + 1) (by omega)]
    · subst hki
      have hkn : ¬ (k = xs.length + 1) := by omega
      have hkk : ¬ (k < k) := by omega
      rw [p1eq, if_neg hkn, if_neg hkk, if_pos rfl]
      refine ⟨⟨x, ndp.previous, pos k⟩, (nodeAt_ok_iff _ _ _).2 ⟨_, rfl, hL⟩, Or.inr rfl,
        ?_, ?_⟩
      · rw [p1gt (k + 1) (by omega)]
        rfl
      · show ndp.previous = _
        rw [hprevp]
        by_cases hk0 : k = 0
        · rw [if_pos hk0, if_pos hk0]
        · rw [if_neg hk0, if_neg hk0, p1lt (k - 1) (by omega)]
    · obtain ⟨b, nd, hpb, hgb, hlb, _, hitem, hnext, hprev⟩ := h.node (k - 1) (by omega)
      have hk0 : ¬ (k = 0) := by omega
      have hkl : ¬ (k < i) := by omega
      have hke : ¬ (k = i) := by omega
      have hit : k = xs.length + 1 ∨ xs[k - 1]? = some nd.item := by
        rcases hitem with e | e
        · exact Or.inl (by omega)
        · exact Or.inr e
      have hnx : nd.next = if k = xs.length + 1 then none else pos1 (k + 1) := by
        rw [hnext]
        by_cases hkn : k = xs.length + 1
        · rw [if_pos hkn, if_pos (by omega)]
        · rw [if_neg hkn, if_neg (by omega), p1gt (k + 1) (by omega)]
          have e : k - 1 + 1 = k + 1 - 1 := by omega
          rw [e]
      rw [p1gt k hki, if_neg hkl, if_neg hke, if_neg hk0]
      by_cases hk1 : k = i + 1
      · have hba : b = ap := by
          have e : k - 1 = i := by omega
          rw [e] at hpb
          exact Option.some.inj (hpb.symm.trans hpp)
        subst hba
        have hnd : nd = ndp := by
          have := hgb.symm.trans hgp
          simpa using this
        subst hnd
        refine ⟨{ nd with previous := some s.heap.length },
          (nodeAt_ok_iff _ _ _).2 ⟨b, hpb, hP⟩, hit, hnx, ?_⟩
        have e : k - 1 = i := by omega
        rw [e, p1eq]
      · have hbp : b ≠ ap :=
          getElem?_of_seq_ne h (show k - 1 ≤ xs.length by omega) hi hpb hpp (by omega)
        have hq : i = 0 ∨ pos (i - 1) ≠ some b := by
          by_cases hi0 : i = 0
          · exact Or.inl hi0
          · refine Or.inr (fun e => ?_)
            have := h.inj (show i - 1 ≤ xs.length by omega)
              (show k - 1 ≤ xs.length by omega) (e.trans hpb.symm)
            omega
        refine ⟨nd, (nodeAt_ok_iff _ _ _).2 ⟨b, hpb, hO b nd hgb hbp hq⟩, hit, hnx, ?_⟩
        rw [hprev, if_neg (by omega), p1gt (k - 1) (by omega)]
  · show w.list_size = s.list_size + 1
    exact hsize

end LinkedList

namespace LinkedList
variable {α : Type}

theorem lt_of_getElem?_some {β : Type} (l : List β) (a : Nat) (x : β)
    (h : l[a]? = some x) : a < l.length := by
  by_contra hh
  rw [List.getElem?_eq_none (by omega)] at h
  exact absurd h (by simp)

/-- The statements of `erase` after the node in front has been relinked. -/
theorem erase_tail (s : LinkedList α) (ap an : Nat) (ndp ndn : Node α) (m : Nat)
    (hfit : m < sizeRange) (hsize : s.list_size = m + 1)
    (hp : s.heap[ap]? = some (some ndp)) (hn : s.heap[an]? = some (some ndn))
    (hnx : ndp.next = some an) (hne : an ≠ ap) :
    (do let pp ← prevOf (some ap)
        let pn ← nextOf (some ap)
        setPrev pn pp
        delete (some ap)
        Op.modify fun s => { s with list_size := decr s.list_size }) s
      = .ok ()
          { heap := (s.heap.set an (some { ndn with previous := ndp.previous })).set ap none,
            first := s.first, last := s.last, list_size := m } := by
  simp only [Op.bind_apply, prevOf_eq s ap ndp hp, nextOf_eq s ap ndp hp, hnx]
  rw [setPrev_eq s an ndn _ hn]
  simp only []
  rw [delete_eq ⟨_, s.first, s.last, s.list_size⟩ ap ndp
    (by simp [List.getElem?_set, hne, hp])]
  simp only [Op.modify]
  rw [hsize, decr_succ m hfit]

/-- The run of `erase` at the position of index `i` of a well-formed chain. -/
theorem erase_run (s : LinkedList α) (pos : Nat → Ptr) (xs : List α) (i : Nat)
    (h : Seq s pos xs) (hi : i < xs.length) (hfit : xs.length < sizeRange) :
    ∃ w an ndn, pos (i + 1) = some an ∧ s.heap[an]? = some (some ndn) ∧
      erase ⟨pos i⟩ s = .ok () w ∧
      w.first = (if i = 0 then pos 1 else s.first) ∧ w.last = s.last ∧
      w.list_size + 1 = s.list_size ∧ w.heap.length = s.heap.length ∧
      w.heap[an]? = some (some { ndn with
        previous := if i = 0 then none else pos (i - 1) }) ∧
      (∀ aq ndq, 0 < i → pos (i - 1) = some aq → s.heap[aq]? = some (some ndq) →
        w.heap[aq]? = some (some { ndq with next := some an })) ∧
      (∀ b nd, s.heap[b]? = some (some nd) → pos i ≠ some b → b ≠ an →
        (i = 0 ∨ pos (i - 1) ≠ some b) → w.heap[b]? = some (some nd)) := by
  obtain ⟨ap, ndp, hpp, hgp, hlp, _, _, hnextp, hprevp⟩ := h.node i (by omega)
  obtain ⟨an, ndn, hpn, hgn, hln, _, _, _, _⟩ := h.node (i + 1) (by omega)
  have hnp : an ≠ ap := getElem?_of_seq_ne h (by omega) (by omega) hpn hpp (by omega)
  have hnx : ndp.next = some an := by
    rw [hnextp, if_neg (by omega), hpn]
  have hsize : s.list_size = (xs.length - 1) + 1 := by
    rw [h.2.2.1]
    omega
  have hfit1 : xs.length - 1 < sizeRange := by omega
  rw [hpp]
  by_cases hi0 : i = 0
  · subst hi0
    have hfirst : s.first = some ap := h.1.trans hpp
    have hpv : ndp.previous = none := by simpa using hprevp
    have htail := erase_tail ⟨s.heap, some an, s.last, s.list_size⟩ ap an ndp ndn
      (xs.length - 1) hfit1 hsize hgp hgn hnx hnp
    have hrun : erase ⟨some ap⟩ s = .ok ()
        { heap := (s.heap.set an (some { ndn with previous := ndp.previous })).set ap none,
          first := some an, last := s.last, list_size := xs.length - 1 } := by
      unfold erase
      simp only [Op.bind_apply, Op.get, hfirst, if_true, nextOf_eq s ap ndp hgp, hnx,
        Op.modify]
      exact htail
    refine ⟨_, an, ndn, hpn, hgn, hrun, ?_, rfl, ?_, by simp, ?_, ?_, ?_⟩
    · simp [hpn]
    · show xs.length - 1 + 1 = s.list_size
      rw [hsize]
    · rw [List.getElem?_set_ne (Ne.symm hnp), List.getElem?_set_self (by simpa using hln),
        hpv]
      simp
    · intro aq ndq hpos
      exact absurd hpos (by decide)
    · intro b nd hb hbp hbn _
      have hbp1 : ap ≠ b := fun e => hbp (by rw [e])
      rw [List.getElem?_set_ne hbp1, List.getElem?_set_ne (Ne.symm hbn), hb]
  · obtain ⟨aq, ndq, hpq, hgq, hlq, _, _, _, _⟩ := h.node (i - 1) (by omega)
    have hqp : aq ≠ ap := getElem?_of_seq_ne h (by omega) (by omega) hpq hpp (by omega)
    have hqn : aq ≠ an := getElem?_of_seq_ne h (by omega) (by omega) hpq hpn (by omega)
    have hfirst : ¬ (some ap = s.first) := by
      intro e
      have := h.inj (show i ≤ xs.length by omega) (show 0 ≤ xs.length by omega)
        (hpp.trans (e.trans h.1))
      exact hi0 this
    have hpv : ndp.previous = some aq := by
      rw [hprevp, if_neg hi0, hpq]
    have htail := erase_tail
      ⟨s.heap.set aq (some { ndq with next := some an }), s.first, s.last, s.list_size⟩
      ap an ndp ndn (xs.length - 1) hfit1 hsize
      (by rw [List.getElem?_set_ne hqp, hgp]) (by rw [List.getElem?_set_ne hqn, hgn])
      hnx hnp
    have hrun : erase ⟨some ap⟩ s = .ok ()
        { heap := ((s.heap.set aq (some { ndq with next := some an })).set an
                    (some { ndn with previous := ndp.previous })).set ap none,
          first := s.first, last := s.last, list_size := xs.length - 1 } := by
      unfold erase
      simp only [Op.bind_apply, Op.get, if_neg hfirst, nextOf_eq s ap ndp hgp,
        prevOf_eq s ap ndp hgp, hnx, hpv]
      rw [setNext_eq s aq ndq _ hgq]
      simp only []
      rw [hpv] at htail
      exact htail
    refine ⟨_, an, ndn, hpn, hgn, hrun, ?_, rfl, ?_, by simp, ?_, ?_, ?_⟩
    · simp [hi0]
    · show xs.length - 1 + 1 = s.list_size
      rw [hsize]
    · rw [List.getElem?_set_ne (Ne.symm hnp),
        List.getElem?_set_self (by simpa using hln), hpv, if_neg hi0, hpq]
    · intro aq2 ndq2 _ hpq2 hgq2
      have e : aq2 = aq := Option.some.inj (hpq2.symm.trans hpq)
      subst e
      have e2 : ndq2 = ndq := by
        have := hgq2.symm.trans hgq
        simpa using this
      subst e2
      rw [List.getElem?_set_ne (Ne.symm hqp), List.getElem?_set_ne (Ne.symm hqn),
        List.getElem?_set_self hlq]
    · intro b nd hb hbp hbn hq
      have hbp1 : ap ≠ b := fun e => hbp (by rw [e])
      have hbq : aq ≠ b := by
        rcases hq with e | e
        · exact absurd e hi0
        · intro e2
          exact e (by rw [hpq, e2])
      rw [List.getElem?_set_ne hbp1, List.getElem?_set_ne (Ne.symm hbn),
        List.getElem?_set_ne hbq, hb]

end LinkedList

namespace LinkedList
variable {α : Type}

theorem getElem?_erase_at (xs : List α) (i k : Nat) (hi : i ≤ xs.length) :
    (xs.take i ++ xs.drop (i + 1))[k]? = if k < i then xs[k]? else xs[k + 1]? := by
  have hl : (xs.take i).length = i := by simp [Nat.min_eq_left hi]
  by_cases h1 : k < i
  · rw [if_pos h1, List.getElem?_append_left (by omega), List.getElem?_take, if_pos h1]
  · rw [if_neg h1, List.getElem?_append_right (by omega), hl, List.getElem?_drop]
    congr 1
    omega

/-- After `erase` at index `i` the chain holds the list without its `i`-th element. -/
theorem erase_seq_aux (s : LinkedList α) (pos pos2 : Nat → Ptr) (xs : List α) (i : Nat)
    (h : Seq s pos xs) (hi : i < xs.length) (hfit : xs.length < sizeRange)
    (p2lt : ∀ k, k < i → pos2 k = pos k) (p2ge : ∀ k, i ≤ k → pos2 k = pos (k + 1)) :
    ∃ w, erase ⟨pos i⟩ s = .ok () w ∧ Seq w pos2 (xs.take i ++ xs.drop (i + 1)) ∧
      w.getSize + 1 = s.getSize := by
  obtain ⟨w, an, ndn, hpn, hgn, hrun, hfirst, hlast, hsize, hlen, hN, hQ, hO⟩ :=
    erase_run s pos xs i h hi hfit
  have hlen1 : (xs.take i ++ xs.drop (i + 1)).length = xs.length - 1 := by
    simp only [List.length_append, List.length_take, List.length_drop,
      Nat.min_eq_left (Nat.le_of_lt hi)]
    omega
  obtain ⟨an0, ndn0, hpn0, hgn0, _, _, hitemn, hnextn, hprevn⟩ := h.node (i + 1) (by omega)
  have ean : an = an0 := Option.some.inj (hpn.symm.trans hpn0)
  subst ean
  have endn : ndn = ndn0 := by
    have := hgn.symm.trans hgn0
    simpa using this
  subst endn
  refine ⟨w, hrun, ⟨?_, ?_, ?_, ?_, ?_, ?_⟩, ?_⟩
  · rw [hfirst]
    by_cases hi0 : i = 0
    · rw [if_pos hi0, p2ge 0 (by omega)]
    · rw [if_neg hi0, p2lt 0 (by omega), h.1]
  · rw [hlast, hlen1, h.2.1, p2ge _ (by omega)]
    congr 1
    omega
  · rw [hlen1]
    have := h.2.2.1
    omega
  · rw [hlen, hlen1]
    have := h.2.2.2.1
    omega
  · intro j k hj hk e
    rw [hlen1] at hj hk
    rcases Nat.lt_or_ge j i with hji | hji <;> rcases Nat.lt_or_ge k i with hki | hki
    · rw [p2lt j hji, p2lt k hki] at e
      exact h.inj (by omega) (by omega) e
    · rw [p2lt j hji, p2ge k hki] at e
      have := h.inj (by omega) (by omega) e
      omega
    · rw [p2ge j hji, p2lt k hki] at e
      have := h.inj (by omega) (by omega) e
      omega
    · rw [p2ge j hji, p2ge k hki] at e
      have := h.inj (by omega) (by omega) e
      omega
  · intro k hk
    rw [hlen1] at hk
    rw [hlen1, getElem?_erase_at xs i k (by omega)]
    rcases Nat.lt_or_ge k i with hki | hki
    · obtain ⟨b, nd, hpb, hgb, hlb, _, hitem, hnext, hprev⟩ := h.node k (by omega)
      have hbp : pos i ≠ some b := by
        intro e
        have := h.inj (show i ≤ xs.length by omega) (show k ≤ xs.length by omega)
          (e.trans hpb.symm)
        omega
      have hbn : b ≠ an :=
        getElem?_of_seq_ne h (show k ≤ xs.length by omega) (show i + 1 ≤ xs.length by omega)
          hpb hpn (by omega)
      have hkn : ¬ (k = xs.length - 1) := by omega
      have hkx : ¬ (k = xs.length) := by omega
      have hit : xs[k]? = some nd.item := by
        rcases hitem with e | e
        · exact absurd e hkx
        · exact e
      have hpv : nd.previous = if k = 0 then none else pos2 (k - 1) := by
        rw [hprev]
        by_cases hk0 : k = 0
        · rw [if_pos hk0, if_pos hk0]
        · rw [if_neg hk0, if_neg hk0, p2lt (k - 1) (by omega)]
      rw [p2lt k hki, if_pos hki, if_neg hkn]
      by_cases hk1 : k + 1 = i
      · have hq : pos (i - 1) = some b := by
          have e : i - 1 = k := by omega
          rw [e, hpb]
        refine ⟨{ nd with next := some an },
          (nodeAt_ok_iff _ _ _).2 ⟨b, hpb, hQ b nd (by omega) hq hgb⟩, Or.inr hit, ?_, hpv⟩
        rw [hk1, p2ge i (by omega), hpn]
      · have hq : pos (i - 1) ≠ some b := by
          intro e
          have := h.inj (show i - 1 ≤ xs.length by omega) (show k ≤ xs.length by omega)
            (e.trans hpb.symm)
          omega
        refine ⟨nd, (nodeAt_ok_iff _ _ _).2 ⟨b, hpb, hO b nd hgb hbp hbn (Or.inr hq)⟩,
          Or.inr hit, ?_, hpv⟩
        rw [hnext, if_neg hkx, p2lt (k + 1) (by omega)]
    · obtain ⟨b, nd, hpb, hgb, hlb, _, hitem, hnext, hprev⟩ := h.node (k + 1) (by omega)
      have hkl : ¬ (k < i) := by omega
      have hit : k = xs.length - 1 ∨ xs[k + 1]? = some nd.item := by
        rcases hitem with e | e
        · exact Or.inl (by omega)
        · exact Or.inr e
      have hnx : nd.next = if k = xs.length - 1 then none else pos2 (k + 1) := by
        rw [hnext]
        by_cases hkn : k = xs.length - 1
        · rw [if_pos hkn, if_pos (by omega)]
        · rw [if_neg hkn, if_neg (by omega), p2ge (k + 1) (by omega)]
      rw [p2ge k hki, if_neg hkl]
      by_cases hk1 : k = i
      · have hba : b = an := by
          rw [hk1] at hpb
          exact Option.some.inj (hpb.symm.trans hpn)
        subst hba
        have hnd : nd = ndn := by
          have := hgb.symm.trans hgn
          simpa using this
        subst hnd
        refine ⟨{ nd with previous := if i = 0 then none else pos (i - 1) },
          (nodeAt_ok_iff _ _ _).2 ⟨b, hpb, hN⟩, hit, hnx, ?_⟩
        show (if i = 0 then none else pos (i - 1)) = _
        rw [hk1]
        by_cases hi0 : i = 0
        · rw [if_pos hi0, if_pos hi0]
        · rw [if_neg hi0, if_neg hi0, p2lt (i - 1) (by omega)]
      · have hbp : pos i ≠ some b := by
          intro e
          have := h.inj (show i ≤ xs.length by omega) (show k + 1 ≤ xs.length by omega)
            (e.trans hpb.symm)
          omega
        have hbn : b ≠ an :=
          getElem?_of_seq_ne h (show k + 1 ≤ xs.length by omega)
            (show i + 1 ≤ xs.length by omega) hpb hpn (by omega)
        have hq : i = 0 ∨ pos (i - 1) ≠ some b := by
          refine Or.inr (fun e => ?_)
          have := h.inj (show i - 1 ≤ xs.length by omega)
            (show k + 1 ≤ xs.length by omega) (e.trans hpb.symm)
          omega
        refine ⟨nd, (nodeAt_ok_iff _ _ _).2 ⟨b, hpb, hO b nd hgb hbp hbn hq⟩, hit, hnx, ?_⟩
        rw [hprev, if_neg (by omega), if_neg (by omega), p2ge (k - 1) (by omega)]
        congr 1
        omega
  · show w.list_size + 1 = s.list_size
    exact hsize

end LinkedList

namespace LinkedList
variable {α : Type}

theorem addLoop_outcome (l : LinkedList α) (it : ConstIterator) :
    ∀ (n : Nat) (p : Ptr),
      (match ConstIterator.addLoop l it n p with
        | .ok q _ => Res.ok (⟨q⟩ : ConstIterator) ()
        | .thrown e _ => .thrown e ()
        | .undefined f => .undefined f)
        = (ConstIterator.incN l n ⟨p⟩).outcome := by
  intro n
  induction n with
  | zero => intro p; rfl
  | succ n ih =>
    intro p
    simp only [ConstIterator.addLoop, ConstIterator.incN, Op.bind, ConstIterator.preInc]
    cases hnd : nodeAt l.heap p with
    | error f => rfl
    | ok nd =>
      by_cases hnx : nd.next = none
      · simp only [hnx, if_true]
        rfl
      · simp only [if_neg hnx]
        exact ih nd.next

theorem subLoop_outcome (l : LinkedList α) (it : ConstIterator) :
    ∀ (n : Nat) (p : Ptr),
      (match ConstIterator.subLoop l it n p with
        | .ok q _ => Res.ok (⟨q⟩ : ConstIterator) ()
        | .thrown e _ => .thrown e ()
        | .undefined f => .undefined f)
        = (ConstIterator.decN l n ⟨p⟩).outcome := by
  intro n
  induction n with
  | zero => intro p; rfl
  | succ n ih =>
    intro p
    simp only [ConstIterator.subLoop, ConstIterator.decN, Op.bind, ConstIterator.preDec]
    cases hnd : nodeAt l.heap p with
    | error f => rfl
    | ok nd =>
      by_cases hnx : nd.previous = none
      · simp only [hnx, if_true]
        rfl
      · simp only [if_neg hnx]
        exact ih nd.previous

/-- `it + n` is `n` times `++it`, on every heap. -/
theorem add_outcome (l : LinkedList α) (it : ConstIterator) (n : Nat) :
    (ConstIterator.add l n it).outcome = (ConstIterator.incN l n it).outcome := by
  have h := addLoop_outcome l it n it.pointed
  rw [← h]
  simp only [ConstIterator.add, Int.toNat_ofNat]
  cases ConstIterator.addLoop l it n it.pointed <;> rfl

/-- `it - n` is `n` times `--it`, on every heap. -/
theorem sub_outcome (l : LinkedList α) (it : ConstIterator) (n : Nat) :
    (ConstIterator.sub l n it).outcome = (ConstIterator.decN l n it).outcome := by
  have h := subLoop_outcome l it n it.pointed
  rw [← h]
  simp only [ConstIterator.sub, Int.toNat_ofNat]
  cases ConstIterator.subLoop l it n it.pointed <;> rfl

theorem linkNext_none (s : LinkedList α) : linkNext s none = none := rfl

theorem nextSteps_none (s : LinkedList α) (k : Nat) (q : Ptr) (hq : q ≠ none)
    (h : nextSteps s k none = some q) : False := by
  cases k with
  | zero =>
    simp only [nextSteps, Option.some.injEq] at h
    exact hq h.symm
  | succ k => simp [nextSteps, linkNext_none] at h

/-- A `next` path of `k` links to a node is walked by the loop of `operator+`. -/
theorem addLoop_of_nextSteps (s : LinkedList α) (it : ConstIterator) :
    ∀ (k : Nat) (p q : Ptr), nextSteps s k p = some q → q ≠ none →
      ConstIterator.addLoop s it k p = .ok q it := by
  intro k
  induction k with
  | zero =>
    intro p q h _
    simp only [nextSteps, Option.some.injEq] at h
    rw [ConstIterator.addLoop, h]
  | succ k ih =>
    intro p q h hq
    simp only [nextSteps, linkNext] at h
    simp only [ConstIterator.addLoop]
    cases hnd : nodeAt s.heap p with
    | error f => simp [hnd] at h
    | ok nd =>
      simp only [hnd, Option.some_bind] at h
      by_cases hnx : nd.next = none
      · rw [hnx] at h
        exact absurd h (fun e => nextSteps_none s k q hq e)
      · simp only [if_neg hnx]
        exact ih nd.next q h hq

end LinkedList

namespace LinkedList
variable {α : Type}

theorem nodeAt_of_linkNext (s : LinkedList α) (p q : Ptr) (h : linkNext s p = some q) :
    ∃ nd, nodeAt s.heap p = .ok nd ∧ nd.next = q := by
  unfold linkNext at h
  cases hnd : nodeAt s.heap p with
  | error f => simp [hnd] at h
  | ok nd =>
    simp only [hnd, Option.some.injEq] at h
    exact ⟨nd, rfl, h⟩

theorem nodeAt_of_linkPrev (s : LinkedList α) (p q : Ptr) (h : linkPrev s p = some q) :
    ∃ nd, nodeAt s.heap p = .ok nd ∧ nd.previous = q := by
  unfold linkPrev at h
  cases hnd : nodeAt s.heap p with
  | error f => simp [hnd] at h
  | ok nd =>
    simp only [hnd, Option.some.injEq] at h
    exact ⟨nd, rfl, h⟩

/-- Under the chain invariant `begin() + getSize()` is `end()`. -/
theorem add_getSize_of_chain (s : LinkedList α) (h : ChainInvariant s) :
    ConstIterator.add s s.getSize s.begin = .ok s.end s.begin := by
  obtain ⟨nd, hnd, _⟩ := nodeAt_of_linkNext s s.last none h.2.2.2.2.1
  have hlast : s.last ≠ none := by
    intro e
    rw [e] at hnd
    simp [nodeAt] at hnd
  have hloop := addLoop_of_nextSteps s s.begin s.list_size s.first s.last h.1 hlast
  simp only [ConstIterator.add, Int.toNat_ofNat, getSize, LinkedList.begin, LinkedList.end]
  simp only [LinkedList.begin] at hloop
  rw [hloop]

/-- Under the chain invariant `end() + 1` throws. -/
theorem add_one_end_of_chain (s : LinkedList α) (h : ChainInvariant s) :
    ConstIterator.add s (1 : Nat) s.end = .thrown .out_of_range s.end := by
  obtain ⟨nd, hnd, hnx⟩ := nodeAt_of_linkNext s s.last none h.2.2.2.2.1
  simp only [ConstIterator.add, Int.toNat_ofNat, ConstIterator.addLoop, LinkedList.end, hnd,
    hnx, if_true]

/-- Under the chain invariant `begin() - 1` throws. -/
theorem sub_one_begin_of_chain (s : LinkedList α) (h : ChainInvariant s) :
    ConstIterator.sub s (1 : Nat) s.begin = .thrown .out_of_range s.begin := by
  obtain ⟨nd, hnd, hnx⟩ := nodeAt_of_linkPrev s s.first none h.2.2.2.2.2
  simp only [ConstIterator.sub, Int.toNat_ofNat, ConstIterator.subLoop, LinkedList.begin, hnd,
    hnx, if_true]

end LinkedList

/-- C1: for both containers and every list `l` (the empty one included) the
initializer-list constructor succeeds, iterating the new container from
`begin()` to `end()` visits exactly the elements of `l` in order, and
`getSize()` is the length of `l`. -/
theorem C1_construct_then_iterate {α : Type} [Inhabited α] (l : List α) :
    (∃ v, Vector.ofInitList l = .ok () v ∧ v.toList = .ok l ∧ v.getSize = l.length) ∧
    (∃ s, LinkedList.ofInitList l = .ok () s ∧ s.toList = .ok l s.end ∧
      s.getSize = l.length) :=
  ⟨⟨_, Vector.ofInitList_cells l, Vector.toList_of_holds (Vector.holds_ofInitList l), rfl⟩,
   ⟨_, LinkedList.ofInitList_initState l, LinkedList.toList_initState l, rfl⟩⟩

/-- C3 (code defect): a vector built from the empty initializer list has
`vector_size = 0 ≤ buffer_size = 0`, and so has a moved-from vector; `append` on
either doubles the capacity `0` to `0` and then writes `buffer[0]` outside the
block, so the call does not end in a state with `vector_size ≤ buffer_size`. -/
theorem C3_append_on_capacity_zero :
    Vector.ofInitList ([] : List Nat) = .ok () ⟨0, 0, some [], 0⟩ ∧
    (⟨0, 0, some [], 0⟩ : Vector Nat).vector_size
      ≤ (⟨0, 0, some [], 0⟩ : Vector Nat).buffer_size ∧
    Vector.append 7 (⟨0, 0, some [], 0⟩ : Vector Nat) = .undefined .out_of_bounds ∧
    (Vector.moveCtor (⟨3, 3, some [1, 2, 3], 0⟩ : Vector Nat)).2 = ⟨0, 0, none, 0⟩ ∧
    Vector.append 7 (⟨0, 0, none, 0⟩ : Vector Nat) = .undefined .out_of_bounds := by
  decide

/-- C4 (code defect): on the vector `[1, 2, 3]` with capacity 4,
`insert(begin(), 9)` yields `[9, 2, 2, 2]` (the old first element is overwritten
and the next one is smeared over the tail), `insert(begin() + 1, 9)` yields
`[1, 9, 3, 3]`, and `insert(end(), 9)` never meets `end()` and runs out of the
block. -/
theorem C4_insert_overwrites :
    Vector.appendAll [1, 2, 3] (Vector.new : Vector Nat)
      = .ok () ⟨3, 4, some [1, 2, 3, 0], 0⟩ ∧
    Vector.insert ((⟨3, 4, some [1, 2, 3, 0], 0⟩ : Vector Nat).begin.add 0) 9
        ⟨3, 4, some [1, 2, 3, 0], 0⟩
      = .ok () ⟨4, 4, some [9, 2, 2, 2], 0⟩ ∧
    Vector.toList (⟨4, 4, some [9, 2, 2, 2], 0⟩ : Vector Nat) = .ok [9, 2, 2, 2] ∧
    Vector.insert ((⟨3, 4, some [1, 2, 3, 0], 0⟩ : Vector Nat).begin.add 1) 9
        ⟨3, 4, some [1, 2, 3, 0], 0⟩
      = .ok () ⟨4, 4, some [1, 9, 3, 3], 0⟩ ∧
    Vector.insert (⟨3, 4, some [1, 2, 3, 0], 0⟩ : Vector Nat).end 9
        ⟨3, 4, some [1, 2, 3, 0], 0⟩
      = .undefined .out_of_bounds ∧
    Vector.append 9 (⟨3, 4, some [1, 2, 3, 0], 0⟩ : Vector Nat)
      = .ok () ⟨4, 4, some [1, 2, 3, 9], 0⟩ := by
  refine ⟨by decide, by decide, by rfl, by decide, by decide, by decide⟩

/-- C5 (code defect): on `[1, 2, 3, 4, 5]`, `erase(begin(), begin() + 1)` moves
only one element of the tail: the vector then holds `[2, 2, 3, 4]`, not
`[2, 3, 4, 5]`. -/
theorem C5_eraseRange_long_tail :
    Vector.ofInitList [1, 2, 3, 4, 5] = .ok () ⟨5, 5, some [1, 2, 3, 4, 5], 0⟩ ∧
    Vector.eraseRange ((⟨5, 5, some [1, 2, 3, 4, 5], 0⟩ : Vector Nat).begin.add 0)
        ((⟨5, 5, some [1, 2, 3, 4, 5], 0⟩ : Vector Nat).begin.add 1)
        ⟨5, 5, some [1, 2, 3, 4, 5], 0⟩
      = .ok () ⟨4, 5, some [2, 2, 3, 4, 5], 0⟩ ∧
    Vector.toList (⟨4, 5, some [2, 2, 3, 4, 5], 0⟩ : Vector Nat) = .ok [2, 2, 3, 4] := by
  refine ⟨by decide, by decide, by rfl⟩

/-- C6 (code defect): on the list `[1, 2, 3, 4, 5]`, erasing the range that
covers `2, 3, 4` reads `firstIncluded.pointed->next` after the loop has deleted
that node; and on `[1, 2, 3]` the call with `first == last == begin() + 1` is
not a no-op: it deletes the node of `2` without unlinking it from its
predecessor and decrements the size, after which iteration runs into the
deleted node. -/
theorem C6_eraseRange_uses_deleted_node :
    LinkedList.ofInitList [1, 2, 3, 4, 5] = .ok () (LinkedList.initState [1, 2, 3, 4, 5]) ∧
    LinkedList.ConstIterator.add (LinkedList.initState [1, 2, 3, 4, 5]) 1
        (LinkedList.initState [1, 2, 3, 4, 5]).begin
      = .ok ⟨some 2⟩ (LinkedList.initState [1, 2, 3, 4, 5]).begin ∧
    LinkedList.ConstIterator.add (LinkedList.initState [1, 2, 3, 4, 5]) 4
        (LinkedList.initState [1, 2, 3, 4, 5]).begin
      = .ok ⟨some 5⟩ (LinkedList.initState [1, 2, 3, 4, 5]).begin ∧
    LinkedList.eraseRange ⟨some 2⟩ ⟨some 5⟩ (LinkedList.initState [1, 2, 3, 4, 5])
      = .undefined .use_after_free ∧
    LinkedList.eraseRange ⟨some 2⟩ ⟨some 2⟩ (LinkedList.initState [1, 2, 3])
      = .ok () { heap := [some ⟨0, some 3, none⟩, some ⟨1, none, some 2⟩, none,
                          some ⟨3, some 1, some 0⟩],
                 first := some 1, last := some 0, list_size := 2 } ∧
    LinkedList.toList
        ({ heap := [some ⟨0, some 3, none⟩, some ⟨1, none, some 2⟩, none,
                    some ⟨3, some 1, some 0⟩],
           first := some 1, last := some 0, list_size := 2 } : LinkedList Nat)
      = .undefined .use_after_free := by
  refine ⟨LinkedList.ofInitList_initState _, ?_, ?_, ?_, ?_, ?_⟩ <;> decide

/-- C7 (code defect): `popLast` on `[1, 2]` dereferences the null `previous` of
the head; on `[1, 2, 3]` it returns `3` but links the node of `1` (not the new
last node, that of `2`) to the sentinel, so that iteration yields `[1]` while
`getSize()` is 2. -/
theorem C7_popLast_relinks_wrong_node :
    LinkedList.ofInitList [1, 2] = .ok () (LinkedList.initState [1, 2]) ∧
    LinkedList.popLast (LinkedList.initState [1, 2]) = .undefined .null_deref ∧
    LinkedList.ofInitList [1, 2, 3] = .ok () (LinkedList.initState [1, 2, 3]) ∧
    LinkedList.popLast (LinkedList.initState [1, 2, 3])
      = .ok 3 { heap := [some ⟨0, some 2, none⟩, some ⟨1, none, some 0⟩,
                         some ⟨2, some 1, some 3⟩, none],
                first := some 1, last := some 0, list_size := 2 } ∧
    LinkedList.toList
        ({ heap := [some ⟨0, some 2, none⟩, some ⟨1, none, some 0⟩,
                    some ⟨2, some 1, some 3⟩, none],
           first := some 1, last := some 0, list_size := 2 } : LinkedList Nat)
      = .ok [1] ⟨some 0⟩ := by
  refine ⟨LinkedList.ofInitList_initState _, ?_, LinkedList.ofInitList_initState _, ?_, ?_⟩ <;> decide

/-- C8 (code defect): the list built from `[1]` satisfies the chain invariant,
`prepend(0)` succeeds on it, and the state it leaves does not: the sentinel's
`previous` is the new head, so walking `previous` from the sentinel meets the
head after one step while `getSize()` is 2. -/
theorem C8_prepend_breaks_chain :
    LinkedList.ofInitList [1] = .ok () (LinkedList.initState [1]) ∧
    LinkedList.ChainInvariant (LinkedList.initState ([1] : List Nat)) ∧
    LinkedList.prepend 0 (LinkedList.initState [1])
      = .ok () { heap := [some ⟨0, some 2, none⟩, some ⟨1, none, some 0⟩,
                          some ⟨0, none, some 1⟩],
                 first := some 2, last := some 0, list_size := 2 } ∧
    ¬ LinkedList.ChainInvariant
        ({ heap := [some ⟨0, some 2, none⟩, some ⟨1, none, some 0⟩,
                    some ⟨0, none, some 1⟩],
           first := some 2, last := some 0, list_size := 2 } : LinkedList Nat) := by
  refine ⟨LinkedList.ofInitList_initState _, ?_, by decide, by decide⟩
  unfold LinkedList.ChainInvariant
  refine ⟨by rfl, ?_, by rfl, ?_, by rfl, by rfl⟩ <;> decide

/-- C9 (code defect): `prepend(0)` on the list `[1]` gives a list that iterates
forward as `[0, 1]` with `getSize() == 2`, but stepping back from `end()` visits
only `0`: the element before `end()` is the new one, not `1`, and the old
head's `previous` is still null. -/
theorem C9_prepend_back_links :
    LinkedList.ofInitList [1] = .ok () (LinkedList.initState [1]) ∧
    LinkedList.prepend 0 (LinkedList.initState [1])
      = .ok () { heap := [some ⟨0, some 2, none⟩, some ⟨1, none, some 0⟩,
                          some ⟨0, none, some 1⟩],
                 first := some 2, last := some 0, list_size := 2 } ∧
    LinkedList.toList
        ({ heap := [some ⟨0, some 2, none⟩, some ⟨1, none, some 0⟩,
                    some ⟨0, none, some 1⟩],
           first := some 2, last := some 0, list_size := 2 } : LinkedList Nat)
      = .ok [0, 1] ⟨some 0⟩ ∧
    LinkedList.toListBack
        ({ heap := [some ⟨0, some 2, none⟩, some ⟨1, none, some 0⟩,
                    some ⟨0, none, some 1⟩],
           first := some 2, last := some 0, list_size := 2 } : LinkedList Nat)
      = .ok [0] ⟨some 2⟩ ∧
    LinkedList.linkPrev
        ({ heap := [some ⟨0, some 2, none⟩, some ⟨1, none, some 0⟩,
                    some ⟨0, none, some 1⟩],
           first := some 2, last := some 0, list_size := 2 } : LinkedList Nat) (some 1)
      = some none := by
  refine ⟨LinkedList.ofInitList_initState _, ?_, ?_, ?_, ?_⟩ <;> decide

/-- C10: for both containers `popFirst` and `popLast` throw exactly when
`getSize() == 0`; the exception is `std::logic_error`, and the object at the
`throw` is the object the call started with (size, capacity, links and contents
unchanged). -/
theorem C10_pop_empty_error {α : Type} (v : Vector α) (s : LinkedList α) :
    ((Vector.popFirst v).thrownState
        = if v.getSize = 0 then some (Exn.logic_error, v) else none) ∧
    ((Vector.popLast v).thrownState
        = if v.getSize = 0 then some (Exn.logic_error, v) else none) ∧
    ((LinkedList.popFirst s).thrownState
        = if s.getSize = 0 then some (Exn.logic_error, s) else none) ∧
    ((LinkedList.popLast s).thrownState
        = if s.getSize = 0 then some (Exn.logic_error, s) else none) :=
  ⟨Vector.vector_thrownState_popFirst v, Vector.vector_thrownState_popLast v,
   LinkedList.list_thrownState_popFirst s, LinkedList.list_thrownState_popLast s⟩

/-- C11: on a vector holding `a :: rest`, and on the linked list built from `a :: rest`,
`*begin()` reads `a`, `popFirst()` returns that `a`, `getSize()` drops by exactly one, and
iterating the container afterwards from `begin()` to `end()` yields `rest` in order. -/
theorem C11_popFirst_returns_head {α : Type} [Inhabited α] (v : Vector α) (a : α)
    (rest : List α) (h : Vector.Holds v (a :: rest))
    (hfit : (a :: rest).length < sizeRange) :
    (∃ w, Vector.derefRead v.begin v = .ok a v ∧ Vector.popFirst v = .ok a w ∧
      w.getSize + 1 = v.getSize ∧ w.toList = .ok rest) ∧
    (∃ s w, LinkedList.ofInitList (a :: rest) = .ok () s ∧
      LinkedList.ConstIterator.deref s s.begin = .ok a s.begin ∧
      LinkedList.popFirst s = .ok a w ∧ w.getSize + 1 = s.getSize ∧
      w.toList = .ok rest w.end) := by
  constructor
  · obtain ⟨w, hw, hh, hs, _, _⟩ := Vector.popFirst_holds v a rest h hfit
    exact ⟨w, Vector.head_of_holds v a rest h, hw, hs, Vector.toList_of_holds hh⟩
  · have hseq := LinkedList.seq_initState (a :: rest)
    obtain ⟨w, hw, hh, hs⟩ := LinkedList.popFirst_seq _ _ a rest hseq hfit
    refine ⟨_, w, LinkedList.ofInitList_initState (a :: rest), ?_, hw, hs, hh.toList⟩
    have hd := hseq.deref 0 (Nat.zero_le _)
    have hb : (LinkedList.initState (a :: rest)).begin
        = ⟨LinkedList.initPos (a :: rest).length 0⟩ := congrArg LinkedList.ConstIterator.mk hseq.1
    rw [hb, hd]
    simp

/-- C11 at the vector `[7, 8, 9]` in a block of four slots and the list built from
`[7, 8, 9]`. -/
theorem C11_popFirst_returns_head_witness :
    (∃ w, Vector.derefRead (⟨3, 4, some [7, 8, 9, 0], 0⟩ : Vector Nat).begin
        ⟨3, 4, some [7, 8, 9, 0], 0⟩ = .ok 7 ⟨3, 4, some [7, 8, 9, 0], 0⟩ ∧
      Vector.popFirst (⟨3, 4, some [7, 8, 9, 0], 0⟩ : Vector Nat) = .ok 7 w ∧
      w.getSize + 1 = (⟨3, 4, some [7, 8, 9, 0], 0⟩ : Vector Nat).getSize ∧
      w.toList = .ok [8, 9]) ∧
    (∃ s w, LinkedList.ofInitList ([7, 8, 9] : List Nat) = .ok () s ∧
      LinkedList.ConstIterator.deref s s.begin = .ok 7 s.begin ∧
      LinkedList.popFirst s = .ok 7 w ∧ w.getSize + 1 = s.getSize ∧
      w.toList = .ok [8, 9] w.end) :=
  C11_popFirst_returns_head ⟨3, 4, some [7, 8, 9, 0], 0⟩ 7 [8, 9]
    ⟨rfl, _, rfl, rfl, by decide, rfl⟩ (by simp [sizeRange])

/-- C12 (code defect): `erase(end())` is not checked.  On the empty list it rebinds `first`
to the sentinel's null `next` and then dereferences that null link; on the list `[1, 2]` it
sets the `next` of the last node to null and then dereferences the sentinel's null `next`.
Neither call throws `out_of_range`, while `*end()` and `++end()` on the same list do. -/
theorem C12_erase_end_null_deref :
    LinkedList.ofInitList ([] : List Nat) = .ok () (LinkedList.initState []) ∧
    LinkedList.erase (LinkedList.initState ([] : List Nat)).end
        (LinkedList.initState ([] : List Nat))
      = .undefined .null_deref ∧
    LinkedList.ofInitList [1, 2] = .ok () (LinkedList.initState [1, 2]) ∧
    LinkedList.erase (LinkedList.initState [1, 2]).end (LinkedList.initState [1, 2])
      = .undefined .null_deref ∧
    (LinkedList.erase (LinkedList.initState [1, 2]).end
      (LinkedList.initState [1, 2])).thrownState = none ∧
    LinkedList.ConstIterator.deref (LinkedList.initState [1, 2])
        (LinkedList.initState [1, 2]).end
      = .thrown .out_of_range (LinkedList.initState [1, 2]).end ∧
    LinkedList.ConstIterator.preInc (LinkedList.initState [1, 2])
        (LinkedList.initState [1, 2]).end
      = .thrown .out_of_range (LinkedList.initState [1, 2]).end := by
  refine ⟨LinkedList.ofInitList_initState _, ?_, LinkedList.ofInitList_initState _,
    ?_, ?_, ?_, ?_⟩ <;> decide

/-- C13: on the list built from `l`, for the iterator `it = begin() + k` with `k ≤ |l|`:
`it` is `end()` exactly for `k = |l|` and `begin()` exactly for `k = 0`; at `end()` the
dereference and both increments throw `out_of_range` and leave the iterator where it was,
elsewhere the dereference returns `l[k]` and the increments move to `begin() + (k + 1)`; at
`begin()` both decrements throw `out_of_range` and leave the iterator where it was,
elsewhere they move to `begin() + (k - 1)`. -/
theorem C13_iterator_checks {α : Type} [Inhabited α] (l : List α) (k : Nat)
    (hk : k ≤ l.length) :
    ∃ s it, LinkedList.ofInitList l = .ok () s ∧
      LinkedList.ConstIterator.add s k s.begin = .ok it s.begin ∧
      (it = s.end ↔ k = l.length) ∧ (it = s.begin ↔ k = 0) ∧
      (it = s.end →
        LinkedList.ConstIterator.deref s it = .thrown .out_of_range it ∧
        LinkedList.ConstIterator.preInc s it = .thrown .out_of_range it ∧
        LinkedList.ConstIterator.postInc s it = .thrown .out_of_range it) ∧
      (it ≠ s.end →
        (∃ x, l[k]? = some x ∧ LinkedList.ConstIterator.deref s it = .ok x it) ∧
        (∃ nx, LinkedList.ConstIterator.add s ((k + 1 : Nat) : Int) s.begin = .ok nx s.begin ∧
          LinkedList.ConstIterator.preInc s it = .ok nx nx ∧
          LinkedList.ConstIterator.postInc s it = .ok it nx)) ∧
      (it = s.begin →
        LinkedList.ConstIterator.preDec s it = .thrown .out_of_range it ∧
        LinkedList.ConstIterator.postDec s it = .thrown .out_of_range it) ∧
      (it ≠ s.begin →
        ∃ pv, LinkedList.ConstIterator.add s ((k - 1 : Nat) : Int) s.begin = .ok pv s.begin ∧
          LinkedList.ConstIterator.preDec s it = .ok pv pv ∧
          LinkedList.ConstIterator.postDec s it = .ok it pv) := by
  have h := LinkedList.seq_initState l
  have hend : (⟨LinkedList.initPos l.length k⟩ : LinkedList.ConstIterator)
      = (LinkedList.initState l).end ↔ k = l.length := by
    constructor
    · intro e
      have e1 : LinkedList.initPos l.length k = (LinkedList.initState l).last :=
        congrArg LinkedList.ConstIterator.pointed e
      rw [h.2.1] at e1
      exact h.inj hk (le_refl _) e1
    · intro e
      rw [e]
      exact (congrArg LinkedList.ConstIterator.mk h.2.1).symm
  have hbegin : (⟨LinkedList.initPos l.length k⟩ : LinkedList.ConstIterator)
      = (LinkedList.initState l).begin ↔ k = 0 := by
    constructor
    · intro e
      have e1 : LinkedList.initPos l.length k = (LinkedList.initState l).first :=
        congrArg LinkedList.ConstIterator.pointed e
      rw [h.1] at e1
      exact h.inj hk (Nat.zero_le _) e1
    · intro e
      rw [e]
      exact (congrArg LinkedList.ConstIterator.mk h.1).symm
  refine ⟨_, ⟨LinkedList.initPos l.length k⟩, LinkedList.ofInitList_initState l,
    h.add_begin k hk, hend, hbegin, ?_, ?_, ?_, ?_⟩
  · intro e
    have hkn := hend.1 e
    have hnone : l[k]? = none := by
      rw [hkn]
      exact List.getElem?_eq_none (le_refl _)
    refine ⟨?_, ?_, ?_⟩
    · rw [h.deref k hk, hnone]
    · rw [h.preInc k hk, if_pos hkn]
    · rw [h.postInc k hk, if_pos hkn]
  · intro e
    have hkn : ¬ (k = l.length) := fun e1 => e (hend.2 e1)
    have hlt : k < l.length := by omega
    refine ⟨⟨l[k], List.getElem?_eq_getElem hlt, ?_⟩, ⟨LinkedList.initPos l.length (k + 1)⟩,
      h.add_begin (k + 1) (by omega), ?_, ?_⟩
    · rw [h.deref k hk, List.getElem?_eq_getElem hlt]
    · rw [h.preInc k hk, if_neg hkn]
    · rw [h.postInc k hk, if_neg hkn]
  · intro e
    have hk0 := hbegin.1 e
    refine ⟨?_, ?_⟩
    · rw [h.preDec k hk, if_pos hk0]
    · rw [h.postDec k hk, if_pos hk0]
  · intro e
    have hk0 : ¬ (k = 0) := fun e1 => e (hbegin.2 e1)
    refine ⟨⟨LinkedList.initPos l.length (k - 1)⟩, h.add_begin (k - 1) (by omega), ?_, ?_⟩
    · rw [h.preDec k hk, if_neg hk0]
    · rw [h.postDec k hk, if_neg hk0]

/-- C13 on the list built from `[4, 5, 6]` at index 1. -/
theorem C13_iterator_checks_witness :
    ∃ s it, LinkedList.ofInitList ([4, 5, 6] : List Nat) = .ok () s ∧
      LinkedList.ConstIterator.add s (1 : Nat) s.begin = .ok it s.begin ∧
      (it = s.end ↔ 1 = [4, 5, 6].length) ∧ (it = s.begin ↔ 1 = 0) ∧
      (it = s.end →
        LinkedList.ConstIterator.deref s it = .thrown .out_of_range it ∧
        LinkedList.ConstIterator.preInc s it = .thrown .out_of_range it ∧
        LinkedList.ConstIterator.postInc s it = .thrown .out_of_range it) ∧
      (it ≠ s.end →
        (∃ x, [4, 5, 6][1]? = some x ∧ LinkedList.ConstIterator.deref s it = .ok x it) ∧
        (∃ nx, LinkedList.ConstIterator.add s ((1 + 1 : Nat) : Int) s.begin = .ok nx s.begin ∧
          LinkedList.ConstIterator.preInc s it = .ok nx nx ∧
          LinkedList.ConstIterator.postInc s it = .ok it nx)) ∧
      (it = s.begin →
        LinkedList.ConstIterator.preDec s it = .thrown .out_of_range it ∧
        LinkedList.ConstIterator.postDec s it = .thrown .out_of_range it) ∧
      (it ≠ s.begin →
        ∃ pv, LinkedList.ConstIterator.add s ((1 - 1 : Nat) : Int) s.begin = .ok pv s.begin ∧
          LinkedList.ConstIterator.preDec s it = .ok pv pv ∧
          LinkedList.ConstIterator.postDec s it = .ok it pv) :=
  C13_iterator_checks [4, 5, 6] 1 (by decide)

/-- C14: on the list built from `l`, for `i ≤ |l|`, `insert(begin() + i, x)` succeeds and
gives a list that iterates as `l[0..i) ++ [x] ++ l[i..|l|)` with `getSize() = |l| + 1`, and
`erase(begin() + i)` on that list succeeds and gives a list that iterates as `l` again with
`getSize() = |l|`. -/
theorem C14_insert_then_erase {α : Type} [Inhabited α] (l : List α) (i : Nat) (x : α)
    (hi : i ≤ l.length) (hfit : l.length + 1 < sizeRange) :
    ∃ s it w1 it1 w2, LinkedList.ofInitList l = .ok () s ∧
      LinkedList.ConstIterator.add s i s.begin = .ok it s.begin ∧
      LinkedList.insert it x s = .ok () w1 ∧
      w1.toList = .ok (l.take i ++ x :: l.drop i) w1.end ∧ w1.getSize = l.length + 1 ∧
      LinkedList.ConstIterator.add w1 i w1.begin = .ok it1 w1.begin ∧
      LinkedList.erase it1 w1 = .ok () w2 ∧
      w2.toList = .ok l w2.end ∧ w2.getSize = l.length := by
  have h := LinkedList.seq_initState l
  have hlen1 : (l.take i ++ x :: l.drop i).length = l.length + 1 := by
    simp only [List.length_append, List.length_take, List.length_cons, List.length_drop,
      Nat.min_eq_left hi]
    omega
  obtain ⟨w1, hw1, hseq1, hs1⟩ := LinkedList.insert_seq_aux (LinkedList.initState l)
    (LinkedList.initPos l.length)
    (fun k => if k < i then LinkedList.initPos l.length k
      else if k = i then some (LinkedList.initState l).heap.length
      else LinkedList.initPos l.length (k - 1))
    l x i h hi
    (fun k hk => by simp only [if_pos hk])
    (by simp only [if_neg (Nat.lt_irrefl i), if_true])
    (fun k hk => by
      simp only [if_neg (Nat.not_lt_of_gt hk), if_neg (Nat.ne_of_gt hk)])
  obtain ⟨w2, hw2, hseq2, hs2⟩ := LinkedList.erase_seq_aux w1 _
    (fun k => if k < i
      then (if k < i then LinkedList.initPos l.length k
        else if k = i then some (LinkedList.initState l).heap.length
        else LinkedList.initPos l.length (k - 1))
      else (if k + 1 < i then LinkedList.initPos l.length (k + 1)
        else if k + 1 = i then some (LinkedList.initState l).heap.length
        else LinkedList.initPos l.length (k + 1 - 1)))
    (l.take i ++ x :: l.drop i) i hseq1 (by omega) (by omega)
    (fun k hk => by simp only [if_pos hk])
    (fun k hk => by simp only [if_neg (Nat.not_lt_of_ge hk)])
  have hback : (l.take i ++ x :: l.drop i).take i ++ (l.take i ++ x :: l.drop i).drop (i + 1)
      = l := by
    have hl : (l.take i).length = i := by simp [Nat.min_eq_left hi]
    rw [List.take_left' hl, List.drop_append_eq_append_drop, hl,
      List.drop_of_length_le (by omega)]
    simp
  rw [hback] at hseq2
  have hsz1 : w1.getSize = l.length + 1 := by
    rw [hs1]
    rfl
  refine ⟨_, ⟨LinkedList.initPos l.length i⟩, w1, _, w2, LinkedList.ofInitList_initState l,
    h.add_begin i hi, hw1, hseq1.toList, hsz1, hseq1.add_begin i (by omega), hw2,
    hseq2.toList, ?_⟩
  omega

/-- C14 on the list built from `[1, 2, 3]`, inserting `9` at index 1. -/
theorem C14_insert_then_erase_witness :
    ∃ s it w1 it1 w2, LinkedList.ofInitList ([1, 2, 3] : List Nat) = .ok () s ∧
      LinkedList.ConstIterator.add s (1 : Nat) s.begin = .ok it s.begin ∧
      LinkedList.insert it 9 s = .ok () w1 ∧
      w1.toList = .ok ([1, 2, 3].take 1 ++ 9 :: [1, 2, 3].drop 1) w1.end ∧
      w1.getSize = [1, 2, 3].length + 1 ∧
      LinkedList.ConstIterator.add w1 (1 : Nat) w1.begin = .ok it1 w1.begin ∧
      LinkedList.erase it1 w1 = .ok () w2 ∧
      w2.toList = .ok [1, 2, 3] w2.end ∧ w2.getSize = [1, 2, 3].length :=
  C14_insert_then_erase [1, 2, 3] 1 9 (by decide) (by simp [sizeRange])

/-- C15: on a vector holding `l`, `erase(begin() + i)` for `i < |l|` succeeds and leaves the
vector holding `l` without its `i`-th element, the elements behind it moved one slot to the
left; `getSize()` drops by exactly one and the capacity stays as it was. -/
theorem C15_erase_position {α : Type} (v : Vector α) (l : List α) (i : Nat)
    (h : Vector.Holds v l) (hi : i < l.length) (hfit : l.length < sizeRange) :
    ∃ w, Vector.erase (v.begin.add i) v = .ok () w ∧
      Vector.Holds w (l.take i ++ l.drop (i + 1)) ∧
      w.toList = .ok (l.take i ++ l.drop (i + 1)) ∧
      w.getSize + 1 = v.getSize ∧ w.buffer_size = v.buffer_size := by
  obtain ⟨w, hw, hh, hs, hc, _⟩ := Vector.erase_holds v l i h hi hfit
  exact ⟨w, hw, hh, Vector.toList_of_holds hh, hs, hc⟩

/-- C15 at the vector `[1, 2, 3, 4]`, erasing the element of index 1. -/
theorem C15_erase_position_witness :
    ∃ w, Vector.erase ((⟨4, 4, some [1, 2, 3, 4], 0⟩ : Vector Nat).begin.add 1)
        ⟨4, 4, some [1, 2, 3, 4], 0⟩ = .ok () w ∧
      Vector.Holds w ([1, 2, 3, 4].take 1 ++ [1, 2, 3, 4].drop (1 + 1)) ∧
      w.toList = .ok ([1, 2, 3, 4].take 1 ++ [1, 2, 3, 4].drop (1 + 1)) ∧
      w.getSize + 1 = (⟨4, 4, some [1, 2, 3, 4], 0⟩ : Vector Nat).getSize ∧
      w.buffer_size = (⟨4, 4, some [1, 2, 3, 4], 0⟩ : Vector Nat).buffer_size :=
  C15_erase_position ⟨4, 4, some [1, 2, 3, 4], 0⟩ [1, 2, 3, 4] 1
    ⟨rfl, _, rfl, rfl, by decide, rfl⟩ (by decide) (by simp [sizeRange])

/-- C16: move construction hands the contents over.  For a vector `A` holding `l` the new
vector iterates as `l` with `getSize() = |l|`, and `A` is left with size 0, `isEmpty()` and
a null buffer; for the list `A` built from `l` the new list iterates as `l` with
`getSize() = |l|`, and `A` is left with size 0, `isEmpty()` and null head and sentinel
pointers. -/
theorem C16_move_constructor {α : Type} [Inhabited α] (v : Vector α) (l : List α)
    (h : Vector.Holds v l) :
    ((Vector.moveCtor v).1.toList = .ok l ∧ (Vector.moveCtor v).1.getSize = l.length ∧
      (Vector.moveCtor v).2.getSize = 0 ∧ (Vector.moveCtor v).2.isEmpty = true ∧
      (Vector.moveCtor v).2.buffer = none) ∧
    (∃ s, LinkedList.ofInitList l = .ok () s ∧
      (LinkedList.moveCtor s).1.toList = .ok l (LinkedList.moveCtor s).1.end ∧
      (LinkedList.moveCtor s).1.getSize = l.length ∧
      (LinkedList.moveCtor s).2.getSize = 0 ∧ (LinkedList.moveCtor s).2.isEmpty = true ∧
      (LinkedList.moveCtor s).2.first = none ∧ (LinkedList.moveCtor s).2.last = none) := by
  refine ⟨⟨?_, h.1, rfl, rfl, rfl⟩,
    ⟨_, LinkedList.ofInitList_initState l, ?_, rfl, rfl, rfl, rfl, rfl⟩⟩
  · have hm : Vector.Holds (Vector.moveCtor v).1 l := h
    exact Vector.toList_of_holds hm
  · exact LinkedList.toList_initState l

/-- C16 at the vector and the list holding `[1, 2, 3]`. -/
theorem C16_move_constructor_witness :
    ((Vector.moveCtor (⟨3, 3, some [1, 2, 3], 0⟩ : Vector Nat)).1.toList = .ok [1, 2, 3] ∧
      (Vector.moveCtor (⟨3, 3, some [1, 2, 3], 0⟩ : Vector Nat)).1.getSize
        = [1, 2, 3].length ∧
      (Vector.moveCtor (⟨3, 3, some [1, 2, 3], 0⟩ : Vector Nat)).2.getSize = 0 ∧
      (Vector.moveCtor (⟨3, 3, some [1, 2, 3], 0⟩ : Vector Nat)).2.isEmpty = true ∧
      (Vector.moveCtor (⟨3, 3, some [1, 2, 3], 0⟩ : Vector Nat)).2.buffer = none) ∧
    (∃ s, LinkedList.ofInitList ([1, 2, 3] : List Nat) = .ok () s ∧
      (LinkedList.moveCtor s).1.toList = .ok [1, 2, 3] (LinkedList.moveCtor s).1.end ∧
      (LinkedList.moveCtor s).1.getSize = [1, 2, 3].length ∧
      (LinkedList.moveCtor s).2.getSize = 0 ∧ (LinkedList.moveCtor s).2.isEmpty = true ∧
      (LinkedList.moveCtor s).2.first = none ∧ (LinkedList.moveCtor s).2.last = none) :=
  C16_move_constructor ⟨3, 3, some [1, 2, 3], 0⟩ [1, 2, 3] ⟨rfl, _, rfl, rfl, by decide, rfl⟩

/-- C17 (code defect): move assignment does not reset its source.  With `dst` the list `[9]`
and `src` the list `[1, 2]` in one heap, `dst = std::move(src)` deletes the nodes of `dst`
and copies size, head and sentinel of `src`; afterwards `dst` iterates as `[1, 2]`, but
`src.getSize()` is still 2 and `src` has the same head and the same sentinel as `dst`, so
every node is owned by both lists.  The move constructor resets its source. -/
theorem C17_moveAssign_keeps_source :
    LinkedList.toList
        ({ heap := [some ⟨0, some 1, none⟩, some ⟨9, none, some 0⟩, some ⟨0, some 4, none⟩,
                    some ⟨1, none, some 4⟩, some ⟨2, some 3, some 2⟩],
           first := some 1, last := some 0, list_size := 1 } : LinkedList Nat)
      = .ok [9] ⟨some 0⟩ ∧
    LinkedList.toList
        ({ heap := [some ⟨0, some 1, none⟩, some ⟨9, none, some 0⟩, some ⟨0, some 4, none⟩,
                    some ⟨1, none, some 4⟩, some ⟨2, some 3, some 2⟩],
           first := some 3, last := some 2, list_size := 2 } : LinkedList Nat)
      = .ok [1, 2] ⟨some 2⟩ ∧
    LinkedList.moveAssign
        ({ heap := [some ⟨0, some 1, none⟩, some ⟨9, none, some 0⟩, some ⟨0, some 4, none⟩,
                    some ⟨1, none, some 4⟩, some ⟨2, some 3, some 2⟩],
           first := some 3, last := some 2, list_size := 2 } : LinkedList Nat)
        { heap := [some ⟨0, some 1, none⟩, some ⟨9, none, some 0⟩, some ⟨0, some 4, none⟩,
                   some ⟨1, none, some 4⟩, some ⟨2, some 3, some 2⟩],
          first := some 1, last := some 0, list_size := 1 }
      = .ok { heap := [none, none, some ⟨0, some 4, none⟩, some ⟨1, none, some 4⟩,
                       some ⟨2, some 3, some 2⟩],
              first := some 3, last := some 2, list_size := 2 }
            { heap := [none, none, some ⟨0, some 4, none⟩, some ⟨1, none, some 4⟩,
                       some ⟨2, some 3, some 2⟩],
              first := some 3, last := some 2, list_size := 2 } ∧
    LinkedList.toList
        ({ heap := [none, none, some ⟨0, some 4, none⟩, some ⟨1, none, some 4⟩,
                    some ⟨2, some 3, some 2⟩],
           first := some 3, last := some 2, list_size := 2 } : LinkedList Nat)
      = .ok [1, 2] ⟨some 2⟩ ∧
    (LinkedList.moveCtor
        ({ heap := [some ⟨0, some 1, none⟩, some ⟨9, none, some 0⟩, some ⟨0, some 4, none⟩,
                    some ⟨1, none, some 4⟩, some ⟨2, some 3, some 2⟩],
           first := some 3, last := some 2, list_size := 2 } : LinkedList Nat)).2.getSize
      = 0 := by
  refine ⟨?_, ?_, ?_, ?_, ?_⟩ <;> decide

/-- C18: on a list satisfying the chain invariant, for every iterator `it` and every
`n ≥ 0`, `it + n` has the outcome of `n` times `operator++` on a copy of `it` and `it - n`
the outcome of `n` times `operator--`: the same position if every step succeeds, the same
`out_of_range` failure if one of the steps fails.  In particular `begin() + getSize()` is
`end()`, `end() + 1` throws `out_of_range` and `begin() - 1` throws `out_of_range`. -/
theorem C18_add_is_repeated_step {α : Type} (s : LinkedList α)
    (it : LinkedList.ConstIterator) (n : Nat) (h : LinkedList.ChainInvariant s) :
    (LinkedList.ConstIterator.add s n it).outcome
      = (LinkedList.ConstIterator.incN s n it).outcome ∧
    (LinkedList.ConstIterator.sub s n it).outcome
      = (LinkedList.ConstIterator.decN s n it).outcome ∧
    LinkedList.ConstIterator.add s s.getSize s.begin = .ok s.end s.begin ∧
    LinkedList.ConstIterator.add s (1 : Nat) s.end = .thrown .out_of_range s.end ∧
    LinkedList.ConstIterator.sub s (1 : Nat) s.begin = .thrown .out_of_range s.begin :=
  ⟨LinkedList.add_outcome s it n, LinkedList.sub_outcome s it n,
   LinkedList.add_getSize_of_chain s h, LinkedList.add_one_end_of_chain s h,
   LinkedList.sub_one_begin_of_chain s h⟩

/-- C18 on the list built from `[1, 2]`, from `begin()`, three steps (one too many). -/
theorem C18_add_is_repeated_step_witness :
    (LinkedList.ConstIterator.add (LinkedList.initState ([1, 2] : List Nat)) (3 : Nat)
        (LinkedList.initState ([1, 2] : List Nat)).begin).outcome
      = (LinkedList.ConstIterator.incN (LinkedList.initState ([1, 2] : List Nat)) 3
          (LinkedList.initState ([1, 2] : List Nat)).begin).outcome ∧
    (LinkedList.ConstIterator.sub (LinkedList.initState ([1, 2] : List Nat)) (3 : Nat)
        (LinkedList.initState ([1, 2] : List Nat)).begin).outcome
      = (LinkedList.ConstIterator.decN (LinkedList.initState ([1, 2] : List Nat)) 3
          (LinkedList.initState ([1, 2] : List Nat)).begin).outcome ∧
    LinkedList.ConstIterator.add (LinkedList.initState ([1, 2] : List Nat))
        (LinkedList.initState ([1, 2] : List Nat)).getSize
        (LinkedList.initState ([1, 2] : List Nat)).begin
      = .ok (LinkedList.initState ([1, 2] : List Nat)).end
          (LinkedList.initState ([1, 2] : List Nat)).begin ∧
    LinkedList.ConstIterator.add (LinkedList.initState ([1, 2] : List Nat)) (1 : Nat)
        (LinkedList.initState ([1, 2] : List Nat)).end
      = .thrown .out_of_range (LinkedList.initState ([1, 2] : List Nat)).end ∧
    LinkedList.ConstIterator.sub (LinkedList.initState ([1, 2] : List Nat)) (1 : Nat)
        (LinkedList.initState ([1, 2] : List Nat)).begin
      = .thrown .out_of_range (LinkedList.initState ([1, 2] : List Nat)).begin :=
  C18_add_is_repeated_step (LinkedList.initState [1, 2])
    (LinkedList.initState ([1, 2] : List Nat)).begin 3 (by
      unfold LinkedList.ChainInvariant
      refine ⟨by rfl, ?_, by rfl, ?_, by rfl, by rfl⟩ <;> decide)

/-- C20: on a vector holding `l`, `erase(begin() + i, begin() + j)` with `i ≤ j ≤ |l|` and
either `i = j` or at most `j - i` elements behind the range succeeds and leaves the vector
holding `l[0..i) ++ l[j..|l|)` with `getSize() = |l| - (j - i)`; for `[1, 2, 3, 4, 5]`,
`i = 1`, `j = 4` that is `[1, 5]` with `getSize() = 2`. -/
theorem C20_eraseRange_short_tail {α : Type} (v : Vector α) (l : List α) (i j : Nat)
    (h : Vector.Holds v l) (hij : i ≤ j) (hj : j ≤ l.length) (hfit : l.length < sizeRange)
    (htail : i = j ∨ l.length - j ≤ j - i) :
    (∃ w, Vector.eraseRange (v.begin.add i) (v.begin.add j) v = .ok () w ∧
      Vector.Holds w (l.take i ++ l.drop j) ∧ w.toList = .ok (l.take i ++ l.drop j) ∧
      w.getSize = l.length - (j - i)) ∧
    (∃ u w, Vector.ofInitList ([1, 2, 3, 4, 5] : List Nat) = .ok () u ∧
      Vector.eraseRange (u.begin.add 1) (u.begin.add 4) u = .ok () w ∧
      w.toList = .ok [1, 5] ∧ w.getSize = 2) := by
  constructor
  · obtain ⟨w, hw, hh, hs, _⟩ := Vector.eraseRange_holds v l i j h hij hj hfit htail
    exact ⟨w, hw, hh, Vector.toList_of_holds hh, hs⟩
  · obtain ⟨w, hw, hh, hs, _⟩ := Vector.eraseRange_holds _ [1, 2, 3, 4, 5] 1 4
      (Vector.holds_ofInitList ([1, 2, 3, 4, 5] : List Nat)) (by decide) (by decide)
      (by simp [sizeRange]) (Or.inr (by decide))
    exact ⟨_, w, Vector.ofInitList_cells _, hw, Vector.toList_of_holds hh, hs⟩

/-- C20 at the scenario `[1, 2, 3, 4, 5]`, `i = 1`, `j = 4`. -/
theorem C20_eraseRange_short_tail_witness :
    (∃ w, Vector.eraseRange ((⟨5, 5, some [1, 2, 3, 4, 5], 0⟩ : Vector Nat).begin.add 1)
        ((⟨5, 5, some [1, 2, 3, 4, 5], 0⟩ : Vector Nat).begin.add 4)
        ⟨5, 5, some [1, 2, 3, 4, 5], 0⟩ = .ok () w ∧
      Vector.Holds w ([1, 2, 3, 4, 5].take 1 ++ [1, 2, 3, 4, 5].drop 4) ∧
      w.toList = .ok ([1, 2, 3, 4, 5].take 1 ++ [1, 2, 3, 4, 5].drop 4) ∧
      w.getSize = [1, 2, 3, 4, 5].length - (4 - 1)) ∧
    (∃ u w, Vector.ofInitList ([1, 2, 3, 4, 5] : List Nat) = .ok () u ∧
      Vector.eraseRange (u.begin.add 1) (u.begin.add 4) u = .ok () w ∧
      w.toList = .ok [1, 5] ∧ w.getSize = 2) :=
  C20_eraseRange_short_tail ⟨5, 5, some [1, 2, 3, 4, 5], 0⟩ [1, 2, 3, 4, 5] 1 4
    ⟨rfl, _, rfl, rfl, by decide, rfl⟩ (by decide) (by decide) (by simp [sizeRange])
    (Or.inr (by decide))

end aisdi
